import Mathlib

/-!
Verification of the SLRfield ephemeris-interpolation and visibility core.

The Python sources are shallowly embedded over exact rationals:
* `quasi_mjd` embeds the quasi-time formula of
  `slrfield/cpf_utils/cpf_interpolate.py` (lines 85-86 and 120-124);
* `lagEval` embeds the exact mathematical semantics of the 10-point
  Lagrange/barycentric interpolation used through
  `scipy.interpolate.BarycentricInterpolator`;
* `interp_ephem` embeds the two branches of `interp_ephem`;
* `cpf_interpolate` embeds the prediction pipeline (range check,
  leap-second propagation, quasi-time construction, interpolation,
  light-time handling), with the external astropy frame transform
  `itrs2horizon` abstracted as a function parameter;
* `next_pass` embeds the coarse-scan / fine-refinement pass detector of
  `slrfield/query_utils/visible_pass.py`;
* `visible_window` embeds the visibility classification and summary
  aggregation of `visible_pass`.
-/

namespace SLRfield

/-- A Cartesian position (meters, ITRF), as stored in a CPF ephemeris row. -/
structure Vec3 where
  x : ℚ
  y : ℚ
  z : ℚ
deriving DecidableEq, Repr

instance : Inhabited Vec3 := ⟨⟨0, 0, 0⟩⟩

/-- Quasi MJD of a timestamp, from `cpf_interpolate.py` lines 85-86:
`ts_quasi_mjd = ts_mjd_demedian + (ts_sod + leap_second)/86400`, where
`ts_mjd_demedian = mjd - reference_mjd`. -/
def quasi_mjd (ref : ℚ) (mjd : ℤ) (sod leap : ℚ) : ℚ :=
  ((mjd : ℚ) - ref) + (sod + leap) / 86400

/-- Python slice `l[a:b]` (step 1) with Python's negative-index and
clamping semantics, used to embed the stencil selection
`ts_quasi_mjd_cpf[boundary-4:boundary+6]`. -/
def pySlice {α : Type _} (l : List α) (a b : ℤ) : List α :=
  let n : ℤ := l.length
  let a' : ℤ := if a < 0 then a + n else a
  let b' : ℤ := if b < 0 then b + n else b
  let a2 : ℕ := (max a' 0).toNat
  let b2 : ℕ := (min b' n).toNat
  (l.drop a2).take (b2 - a2)

/-- `j`-th Lagrange basis polynomial of the node list `xs`, evaluated at `x`. -/
def lagBasis (xs : List ℚ) (j : ℕ) (x : ℚ) : ℚ :=
  ∏ k ∈ (Finset.range xs.length).erase j,
    (x - xs.getD k 0) / (xs.getD j 0 - xs.getD k 0)

/-- Exact value at `x` of the polynomial interpolating `(xs i, ys i)`;
this is the exact-arithmetic semantics of evaluating
`scipy.interpolate.BarycentricInterpolator(xs, ys)` at `x`. -/
def lagEval (xs ys : List ℚ) (x : ℚ) : ℚ :=
  ∑ j ∈ Finset.range xs.length, ys.getD j 0 * lagBasis xs j x

/-- Componentwise `lagEval` on 3-vectors (scipy's interpolator acts per
Cartesian column of `positions_cpf`). -/
def lagEvalV (xs : List ℚ) (ys : List Vec3) (x : ℚ) : Vec3 :=
  ⟨lagEval xs (ys.map Vec3.x) x, lagEval xs (ys.map Vec3.y) x,
    lagEval xs (ys.map Vec3.z) x⟩

/-- At a node `xs i` (all nodes pairwise distinct), the interpolating
polynomial reproduces the stored ordinate exactly. -/
theorem lagEval_node (xs ys : List ℚ) (i : ℕ) (hi : i < xs.length)
    (hdist : ∀ a b : ℕ, a < xs.length → b < xs.length → a ≠ b →
      xs.getD a 0 ≠ xs.getD b 0) :
    lagEval xs ys (xs.getD i 0) = ys.getD i 0 := by
  unfold lagEval
  rw [Finset.sum_eq_single i]
  · have hbasis : lagBasis xs i (xs.getD i 0) = 1 := by
      unfold lagBasis
      apply Finset.prod_eq_one
      intro k hk
      rcases Finset.mem_erase.mp hk with ⟨hki, hkr⟩
      have hklt := Finset.mem_range.mp hkr
      have hne : xs.getD i 0 - xs.getD k 0 ≠ 0 := by
        have := hdist i k hi hklt (fun h => hki h.symm)
        exact sub_ne_zero_of_ne this
      exact div_self hne
    rw [hbasis, mul_one]
  · intro j hj hji
    have hjlt := Finset.mem_range.mp hj
    have hbasis0 : lagBasis xs j (xs.getD i 0) = 0 := by
      unfold lagBasis
      exact Finset.prod_eq_zero
        (Finset.mem_erase.mpr ⟨fun h => hji h.symm, Finset.mem_range.mpr hi⟩)
        (by simp)
    rw [hbasis0, mul_zero]
  · intro h
    exact absurd (Finset.mem_range.mpr hi) h

/-- Embeds `np.diff(ts_quasi_mjd[j] >= ts_quasi_mjd_cpf).nonzero()[0][0]`
(`interp_ephem`, line 146): the first index at which the boolean series
`q >= cpf[i]` changes, i.e. the index of the source interval bracketing the
query; `none` models the IndexError raised when no such index exists. -/
def bracketIdx (cpf : List ℚ) (q : ℚ) : Option ℕ :=
  (List.range (cpf.length - 1)).find? fun i =>
    decide (cpf.getD i 0 ≤ q) != decide (cpf.getD (i + 1) 0 ≤ q)

/-- Per-query value of the loop branch of `interp_ephem`
(lines 145-150): find the bracketing interval, short-circuit to the
stored sample on an exact time match, otherwise evaluate the 10-point
interpolation stencil `cpf[boundary-4 : boundary+6]`. -/
def loopValue (cpf : List ℚ) (pos : List Vec3) (q : ℚ) : Option Vec3 :=
  match bracketIdx cpf q with
  | none => none
  | some b =>
      if q ∈ cpf then some (pos.getD b default)
      else some (lagEvalV (pySlice cpf ((b : ℤ) - 4) ((b : ℤ) + 6))
          (pySlice pos ((b : ℤ) - 4) ((b : ℤ) + 6)) q)

/-- Sequences `Option`-valued results over a list, failing if any element
fails — the semantics of a Python loop that may raise. -/
def mapOpt {α β : Type _} (g : α → Option β) : List α → Option (List β)
  | [] => some []
  | a :: t =>
    match g a, mapOpt g t with
    | some b, some r => some (b :: r)
    | _, _ => none

/-- The `m <= n` branch of `interp_ephem` (lines 144-151): one
`loopValue` per query, in query order. -/
def interp_ephem_loop (qs cpf : List ℚ) (pos : List Vec3) : Option (List Vec3) :=
  mapOpt (loopValue cpf pos) qs

/-- Group of interpolated values for queries falling in the source
interval `[cpf[i], cpf[i+1])`, from the `m > n` branch of `interp_ephem`
(lines 139-142). -/
def groupOf (qs cpf : List ℚ) (pos : List Vec3) (i : ℕ) : List Vec3 :=
  (qs.filter fun q =>
      decide (cpf.getD i 0 ≤ q) && decide (q < cpf.getD (i + 1) 0)).map
    fun q => lagEvalV (pySlice cpf ((i : ℤ) - 4) ((i : ℤ) + 6))
      (pySlice pos ((i : ℤ) - 4) ((i : ℤ) + 6)) q

/-- The `m > n` branch of `interp_ephem` (lines 138-143): concatenate the
nonempty per-interval groups; `none` models the `np.concatenate` error
when every group is empty. -/
def interp_ephem_group (qs cpf : List ℚ) (pos : List Vec3) : Option (List Vec3) :=
  let groups := (List.range (cpf.length - 1)).map (groupOf qs cpf pos)
  if groups.all (fun g => g.isEmpty) then none else some groups.flatten

/-- `interp_ephem` (`cpf_interpolate.py` lines 112-153): dispatch on
whether the number of query times exceeds the number of source samples. -/
def interp_ephem (qs cpf : List ℚ) (pos : List Vec3) : Option (List Vec3) :=
  if cpf.length < qs.length then interp_ephem_group qs cpf pos
  else interp_ephem_loop qs cpf pos

/-- The common per-query value both branches are compared against:
stencil interpolation at the bracketing interval. -/
def interpValue (cpf : List ℚ) (pos : List Vec3) (q : ℚ) : Vec3 :=
  match bracketIdx cpf q with
  | none => default
  | some b =>
      lagEvalV (pySlice cpf ((b : ℤ) - 4) ((b : ℤ) + 6))
        (pySlice pos ((b : ℤ) - 4) ((b : ℤ) + 6)) q

/-- A query time strictly inside the interpolatable interior of the
source table (the interval the range check of `cpf_interpolate`
lines 55-59 confines predictions to). -/
def InRange (cpf : List ℚ) (q : ℚ) : Prop :=
  cpf.getD 4 0 ≤ q ∧ q < cpf.getD (cpf.length - 5) 0

instance (cpf : List ℚ) (q : ℚ) : Decidable (InRange cpf q) :=
  inferInstanceAs (Decidable (_ ∧ _))

/-- C1, counterexample input: with reference MJD 57753, day 57753,
the quasi-time of (SoD 86400, leap 0) is 1 while the quasi-time of
(SoD 0, leap 1) on day 57754 is 1 + 1/86400. -/
theorem quasi_midnight_not_equal :
    quasi_mjd 57753 57753 86400 0 ≠ quasi_mjd 57753 57754 0 1 := by
  unfold quasi_mjd
  norm_num

/-- C1 (amended): for every reference and every day `d`, the quasi-time of
(SoD 0, leap 1) on day `d+1` exceeds the quasi-time of (SoD 86400, leap 0)
on day `d` by exactly 1/86400 — the two stamps are one (leap) second
apart, not equal; equality instead holds against leap 0 on day `d+1`. -/
theorem quasi_leap_offset (ref : ℚ) (d : ℤ) :
    quasi_mjd ref (d + 1) 0 1 - quasi_mjd ref d 86400 0 = 1 / 86400 ∧
    quasi_mjd ref d 86400 0 = quasi_mjd ref (d + 1) 0 0 := by
  constructor <;> (unfold quasi_mjd; push_cast; ring)

/-- C7: the quasi-time spacing across a leap-second boundary (earlier
sample (d, 86400, 0), flagged later sample (d+1, 0, 1)) is exactly
1/86400, the same as the spacing of two ordinary samples one second
apart on the same day. -/
theorem quasi_leap_spacing_uniform (ref : ℚ) (d : ℤ) (s : ℚ) :
    quasi_mjd ref (d + 1) 0 1 - quasi_mjd ref d 86400 0 =
      quasi_mjd ref d (s + 1) 0 - quasi_mjd ref d s 0 ∧
    quasi_mjd ref d (s + 1) 0 - quasi_mjd ref d s 0 = 1 / 86400 := by
  constructor <;> (unfold quasi_mjd; push_cast; ring)

/-- `find?` over `List.range n` returns the least index satisfying the
predicate. -/
theorem range_find?_eq_some (p : ℕ → Bool) (n b : ℕ) (hb : b < n)
    (hpb : p b = true) (hmin : ∀ j, j < b → p j = false) :
    (List.range n).find? p = some b := by
  induction b generalizing p n with
  | zero =>
    obtain ⟨m, rfl⟩ : ∃ m, n = m + 1 := ⟨n - 1, by omega⟩
    rw [List.range_succ_eq_map]
    exact List.find?_cons_of_pos _ hpb
  | succ b ih =>
    obtain ⟨m, rfl⟩ : ∃ m, n = m + 1 := ⟨n - 1, by omega⟩
    rw [List.range_succ_eq_map]
    rw [List.find?_cons_of_neg _ (by simp [hmin 0 (Nat.succ_pos b)])]
    rw [List.find?_map]
    rw [ih (p ∘ Nat.succ) m (by omega) hpb (fun j hj => hmin (j + 1) (by omega))]
    rfl

theorem getD_lt_of_pairwise {l : List ℚ} (hp : List.Pairwise (· < ·) l)
    {a b : ℕ} (hab : a < b) (hb : b < l.length) :
    l.getD a 0 < l.getD b 0 := by
  rw [List.getD_eq_getElem l 0 (show a < l.length by omega),
    List.getD_eq_getElem l 0 hb]
  exact List.pairwise_iff_get.mp hp ⟨a, by omega⟩ ⟨b, hb⟩ hab

theorem getD_le_of_pairwise {l : List ℚ} (hp : List.Pairwise (· < ·) l)
    {a b : ℕ} (hab : a ≤ b) (hb : b < l.length) :
    l.getD a 0 ≤ l.getD b 0 := by
  rcases Nat.eq_or_lt_of_le hab with rfl | h
  · exact le_refl _
  · exact le_of_lt (getD_lt_of_pairwise hp h hb)

/-- For an in-range query time over a strictly increasing source table,
`bracketIdx` succeeds, the bracketing index leaves a 4-sample margin on
the left and a 6-sample margin on the right, and it brackets the query. -/
theorem bracketIdx_char {cpf : List ℚ} {q : ℚ}
    (hp : List.Pairwise (· < ·) cpf) (hn : 10 ≤ cpf.length)
    (h4 : cpf.getD 4 0 ≤ q) (h5 : q < cpf.getD (cpf.length - 5) 0) :
    ∃ b, bracketIdx cpf q = some b ∧ 4 ≤ b ∧ b + 6 ≤ cpf.length ∧
      cpf.getD b 0 ≤ q ∧ q < cpf.getD (b + 1) 0 := by
  classical
  have hex : ∃ j, ¬ (cpf.getD j 0 ≤ q) := ⟨cpf.length - 5, not_le.mpr h5⟩
  set j0 := Nat.find hex with hj0def
  have hj0 : ¬ (cpf.getD j0 0 ≤ q) := Nat.find_spec hex
  have hmin : ∀ m, m < j0 → cpf.getD m 0 ≤ q := by
    intro m hm
    have := Nat.find_min hex hm
    exact not_not.mp this
  have hj0le : j0 ≤ cpf.length - 5 := Nat.find_min' hex (not_le.mpr h5)
  have hj0ge : 5 ≤ j0 := by
    by_contra hlt
    push_neg at hlt
    have hj04 : j0 ≤ 4 := by omega
    have : cpf.getD j0 0 ≤ cpf.getD 4 0 :=
      getD_le_of_pairwise hp hj04 (by omega)
    exact hj0 (le_trans this h4)
  refine ⟨j0 - 1, ?_, by omega, by omega, hmin (j0 - 1) (by omega), ?_⟩
  · unfold bracketIdx
    apply range_find?_eq_some _ _ _ (by omega)
    · have h1 : cpf.getD (j0 - 1) 0 ≤ q := hmin (j0 - 1) (by omega)
      have h2 : ¬ (cpf.getD (j0 - 1 + 1) 0 ≤ q) := by
        have : j0 - 1 + 1 = j0 := by omega
        rw [this]; exact hj0
      rw [decide_eq_true h1, decide_eq_false h2]; rfl
    · intro j hj
      have h1 : cpf.getD j 0 ≤ q := hmin j (by omega)
      have h2 : cpf.getD (j + 1) 0 ≤ q := hmin (j + 1) (by omega)
      rw [decide_eq_true h1, decide_eq_true h2]; rfl
  · have : j0 - 1 + 1 = j0 := by omega
    rw [this]; exact not_le.mp hj0

/-- The bracketing interval of a query is unique. -/
theorem bracket_unique {cpf : List ℚ} (hp : List.Pairwise (· < ·) cpf)
    {q : ℚ} {i b : ℕ} (hi1 : i + 1 < cpf.length) (hb1 : b + 1 < cpf.length)
    (h1 : cpf.getD i 0 ≤ q) (h2 : q < cpf.getD (i + 1) 0)
    (h3 : cpf.getD b 0 ≤ q) (h4 : q < cpf.getD (b + 1) 0) : i = b := by
  by_contra hne
  rcases Nat.lt_or_ge i b with h | h
  · have : cpf.getD (i + 1) 0 ≤ cpf.getD b 0 :=
      getD_le_of_pairwise hp (by omega) (by omega)
    linarith
  · have hlt : b < i := by omega
    have : cpf.getD (b + 1) 0 ≤ cpf.getD i 0 :=
      getD_le_of_pairwise hp (by omega) (by omega)
    linarith

/-- If a bracketed query is a member of a strictly increasing table, it
is exactly the sample at the bracketing index. -/
theorem mem_eq_getD_bracket {cpf : List ℚ} (hp : List.Pairwise (· < ·) cpf)
    {q : ℚ} {b : ℕ} (hb1 : b + 1 < cpf.length)
    (h1 : cpf.getD b 0 ≤ q) (h2 : q < cpf.getD (b + 1) 0)
    (hmem : q ∈ cpf) : q = cpf.getD b 0 := by
  obtain ⟨⟨k, hk⟩, hkq⟩ := List.mem_iff_get.mp hmem
  have hq : q = cpf.getD k 0 := by
    rw [List.getD_eq_getElem cpf 0 hk, ← hkq]; rfl
  rcases Nat.lt_or_ge k (b + 1) with h | h
  · have hle : cpf.getD k 0 ≤ cpf.getD b 0 :=
      getD_le_of_pairwise hp (by omega) (by omega)
    rw [hq]
    exact le_antisymm hle (hq ▸ h1)
  · have : cpf.getD (b + 1) 0 ≤ cpf.getD k 0 :=
      getD_le_of_pairwise hp h hk
    rw [hq] at h2
    linarith

/-- For a bracketing index with the interior margins, the Python slice
`l[b-4 : b+6]` is `drop (b-4)` then `take 10`. -/
theorem pySlice_interior {α : Type _} (l : List α) (b : ℕ) (h4 : 4 ≤ b)
    (h6 : b + 6 ≤ l.length) :
    pySlice l ((b : ℤ) - 4) ((b : ℤ) + 6) = (l.drop (b - 4)).take 10 := by
  unfold pySlice
  have hb4 : ¬ ((b : ℤ) - 4 < 0) := by omega
  have hb6 : ¬ ((b : ℤ) + 6 < 0) := by omega
  simp only [if_neg hb4, if_neg hb6]
  have ha2 : (max ((b : ℤ) - 4) 0).toNat = b - 4 := by
    rw [max_eq_left (by omega : (0 : ℤ) ≤ (b : ℤ) - 4)]; omega
  have hb2 : (min ((b : ℤ) + 6) (l.length : ℤ)).toNat = b + 6 := by
    rw [min_eq_left (by omega : (b : ℤ) + 6 ≤ (l.length : ℤ))]; omega
  rw [ha2, hb2]
  congr 1
  omega

theorem stencil_length {α : Type _} (l : List α) (b : ℕ) (h4 : 4 ≤ b)
    (h6 : b + 6 ≤ l.length) : ((l.drop (b - 4)).take 10).length = 10 := by
  simp only [List.length_take, List.length_drop]
  omega

theorem stencil_getD {α : Type _} (l : List α) (d : α) (b j : ℕ) (h4 : 4 ≤ b)
    (h6 : b + 6 ≤ l.length) (hj : j < 10) :
    ((l.drop (b - 4)).take 10).getD j d = l.getD (b - 4 + j) d := by
  have hlen : j < ((l.drop (b - 4)).take 10).length := by
    rw [stencil_length l b h4 h6]; exact hj
  rw [List.getD_eq_getElem _ d hlen, List.getD_eq_getElem l d (by omega)]
  rw [List.getElem_take, List.getElem_drop]

/-- At the quasi-time of source sample `i` (interior), stencil
interpolation reproduces the stored position exactly. -/
theorem interpValue_at_sample {cpf : List ℚ} {pos : List Vec3}
    (hp : List.Pairwise (· < ·) cpf) (hlen : pos.length = cpf.length)
    {i : ℕ} (h4 : 4 ≤ i) (h6 : i + 6 ≤ cpf.length) :
    lagEvalV ((cpf.drop (i - 4)).take 10) ((pos.drop (i - 4)).take 10)
      (cpf.getD i 0) = pos.getD i default := by
  have hnode : cpf.getD i 0 = ((cpf.drop (i - 4)).take 10).getD 4 0 := by
    rw [stencil_getD cpf 0 i 4 h4 h6 (by omega)]
    congr 1
    omega
  have hdist : ∀ a b : ℕ, a < ((cpf.drop (i - 4)).take 10).length →
      b < ((cpf.drop (i - 4)).take 10).length → a ≠ b →
      ((cpf.drop (i - 4)).take 10).getD a 0 ≠ ((cpf.drop (i - 4)).take 10).getD b 0 := by
    intro a b ha hb hab
    rw [stencil_length cpf i h4 h6] at ha hb
    rw [stencil_getD cpf 0 i a h4 h6 ha, stencil_getD cpf 0 i b h4 h6 hb]
    rcases Nat.lt_or_ge a b with h | h
    · exact ne_of_lt (getD_lt_of_pairwise hp (by omega) (by omega))
    · have : b < a := by omega
      exact (ne_of_lt (getD_lt_of_pairwise hp (by omega) (by omega))).symm
  have hposlen : i + 6 ≤ pos.length := by omega
  have hi4 : i - 4 + 4 = i := by omega
  have hx := lagEval_node ((cpf.drop (i - 4)).take 10)
    (((pos.drop (i - 4)).take 10).map Vec3.x) 4
    (by rw [stencil_length cpf i h4 h6]; omega) hdist
  have hy := lagEval_node ((cpf.drop (i - 4)).take 10)
    (((pos.drop (i - 4)).take 10).map Vec3.y) 4
    (by rw [stencil_length cpf i h4 h6]; omega) hdist
  have hz := lagEval_node ((cpf.drop (i - 4)).take 10)
    (((pos.drop (i - 4)).take 10).map Vec3.z) 4
    (by rw [stencil_length cpf i h4 h6]; omega) hdist
  unfold lagEvalV
  rw [hnode, hx, hy, hz]
  have hgx : (((pos.drop (i - 4)).take 10).map Vec3.x).getD 4 0 =
      (pos.getD i default).x := by
    have := @List.getD_map _ _ ((pos.drop (i - 4)).take 10) default 4 Vec3.x
    rw [show Vec3.x default = 0 from rfl] at this
    rw [this, stencil_getD pos default i 4 h4 hposlen (by omega), hi4]
  have hgy : (((pos.drop (i - 4)).take 10).map Vec3.y).getD 4 0 =
      (pos.getD i default).y := by
    have := @List.getD_map _ _ ((pos.drop (i - 4)).take 10) default 4 Vec3.y
    rw [show Vec3.y default = 0 from rfl] at this
    rw [this, stencil_getD pos default i 4 h4 hposlen (by omega), hi4]
  have hgz : (((pos.drop (i - 4)).take 10).map Vec3.z).getD 4 0 =
      (pos.getD i default).z := by
    have := @List.getD_map _ _ ((pos.drop (i - 4)).take 10) default 4 Vec3.z
    rw [show Vec3.z default = 0 from rfl] at this
    rw [this, stencil_getD pos default i 4 h4 hposlen (by omega), hi4]
  rw [hgx, hgy, hgz]

/-- For an in-range query, the per-query loop value agrees with stencil
interpolation: the exact-match shortcut returns the value the polynomial
would have produced anyway. -/
theorem loopValue_eq_interpValue {cpf : List ℚ} {pos : List Vec3}
    (hp : List.Pairwise (· < ·) cpf) (hn : 10 ≤ cpf.length)
    (hlen : pos.length = cpf.length) {q : ℚ} (hr : InRange cpf q) :
    loopValue cpf pos q = some (interpValue cpf pos q) := by
  obtain ⟨b, hfind, hb4, hb6, hle, hlt⟩ := bracketIdx_char hp hn hr.1 hr.2
  unfold loopValue interpValue
  simp only [hfind]
  by_cases hmem : q ∈ cpf
  · rw [if_pos hmem]
    have hq : q = cpf.getD b 0 := mem_eq_getD_bracket hp (by omega) hle hlt hmem
    rw [pySlice_interior cpf b hb4 hb6, pySlice_interior pos b hb4 (by omega)]
    rw [hq, interpValue_at_sample hp hlen hb4 hb6]
  · rw [if_neg hmem]

theorem mapOpt_eq_map {α β : Type _} (g : α → Option β) (f : α → β)
    (l : List α) (h : ∀ a ∈ l, g a = some (f a)) :
    mapOpt g l = some (l.map f) := by
  induction l with
  | nil => rfl
  | cons a t ih =>
    simp only [mapOpt, h a (List.mem_cons_self a t),
      ih (fun x hx => h x (List.mem_cons_of_mem _ hx)), List.map_cons]

/-- The loop branch succeeds on in-range queries and computes the
stencil value at every query, in order. -/
theorem interp_loop_eq {cpf : List ℚ} {pos : List Vec3} {qs : List ℚ}
    (hp : List.Pairwise (· < ·) cpf) (hn : 10 ≤ cpf.length)
    (hlen : pos.length = cpf.length) (hr : ∀ q ∈ qs, InRange cpf q) :
    interp_ephem_loop qs cpf pos = some (qs.map (interpValue cpf pos)) :=
  mapOpt_eq_map _ _ _ fun q hq => loopValue_eq_interpValue hp hn hlen (hr q hq)

theorem bool_eq_of_iff {a b : Bool} (h : a = true ↔ b = true) : a = b := by
  cases a <;> cases b <;> simp_all

/-- For a list sorted by the key `f`, the elements with key `< k`
followed by the elements with key `= k` are the elements with
key `< k + 1`, in order. -/
theorem filter_key_lt_append {α : Type _} (f : α → ℕ) (l : List α)
    (hs : List.Pairwise (fun a b => f a ≤ f b) l) (k : ℕ) :
    l.filter (fun a => decide (f a < k)) ++ l.filter (fun a => f a == k) =
      l.filter (fun a => decide (f a < k + 1)) := by
  induction l with
  | nil => rfl
  | cons a t ih =>
    have hhead : ∀ x ∈ t, f a ≤ f x := (List.pairwise_cons.mp hs).1
    have htail := (List.pairwise_cons.mp hs).2
    rcases Nat.lt_trichotomy (f a) k with h | h | h
    · rw [List.filter_cons_of_pos (by simpa using h),
        List.filter_cons_of_neg (by simp; omega),
        List.filter_cons_of_pos (by simp; omega),
        List.cons_append, ih htail]
    · rw [List.filter_cons_of_neg (by simp [h]),
        List.filter_cons_of_pos (by simp [h]),
        List.filter_cons_of_pos (by simp [h])]
      have h1 : t.filter (fun x => decide (f x < k)) = [] := by
        rw [List.filter_eq_nil_iff]
        intro x hx
        have := hhead x hx
        simp
        omega
      rw [h1, List.nil_append]
      congr 1
      apply List.filter_congr
      intro x hx
      have := hhead x hx
      apply bool_eq_of_iff
      simp
      omega
    · rw [List.filter_cons_of_neg (by simp; omega),
        List.filter_cons_of_neg (by simp; omega),
        List.filter_cons_of_neg (by simp; omega), ih htail]

/-- Joining the per-key groups of a key-sorted list restores the list. -/
theorem flatten_range_filter {α : Type _} (f : α → ℕ) (l : List α)
    (hs : List.Pairwise (fun a b => f a ≤ f b) l) (k : ℕ)
    (hk : ∀ a ∈ l, f a < k) :
    ((List.range k).map fun i => l.filter fun a => f a == i).flatten = l := by
  have main : ∀ m : ℕ,
      ((List.range m).map fun i => l.filter fun a => f a == i).flatten =
        l.filter fun a => decide (f a < m) := by
    intro m
    induction m with
    | zero =>
      simp only [List.range_zero, List.map_nil, List.flatten_nil]
      symm
      rw [List.filter_eq_nil_iff]
      intro a ha
      simp
    | succ m ih =>
      rw [List.range_succ, List.map_append, List.flatten_append]
      simp only [List.map_cons, List.map_nil, List.flatten_cons,
        List.flatten_nil, List.append_nil]
      rw [ih, filter_key_lt_append f l hs m]
  rw [main k, List.filter_eq_self.mpr]
  intro a ha
  simpa using hk a ha

/-- The grouped branch succeeds on nonempty, sorted, in-range queries and
computes the stencil value at every query, in query order. -/
theorem interp_group_eq {cpf : List ℚ} {pos : List Vec3} {qs : List ℚ}
    (hp : List.Pairwise (· < ·) cpf) (hn : 10 ≤ cpf.length)
    (hlen : pos.length = cpf.length) (hqs : List.Pairwise (· ≤ ·) qs)
    (hr : ∀ q ∈ qs, InRange cpf q) (hne : qs ≠ []) :
    interp_ephem_group qs cpf pos = some (qs.map (interpValue cpf pos)) := by
  classical
  set F : ℚ → ℕ := fun q => (bracketIdx cpf q).getD 0 with hF
  have hchar : ∀ q ∈ qs, bracketIdx cpf q = some (F q) ∧ 4 ≤ F q ∧
      F q + 6 ≤ cpf.length ∧ cpf.getD (F q) 0 ≤ q ∧
      q < cpf.getD (F q + 1) 0 := by
    intro q hq
    obtain ⟨b, hfind, h1, h2, h3, h4⟩ :=
      bracketIdx_char hp hn (hr q hq).1 (hr q hq).2
    have hFb : F q = b := by rw [hF]; simp [hfind]
    rw [hFb]
    exact ⟨hfind, h1, h2, h3, h4⟩
  have hgroups : ∀ i ∈ List.range (cpf.length - 1),
      groupOf qs cpf pos i =
        (qs.filter fun q => F q == i).map (interpValue cpf pos) := by
    intro i hi
    have hilt : i < cpf.length - 1 := List.mem_range.mp hi
    unfold groupOf
    have hfilter : qs.filter (fun q =>
        decide (cpf.getD i 0 ≤ q) && decide (q < cpf.getD (i + 1) 0)) =
        qs.filter fun q => F q == i := by
      apply List.filter_congr
      intro q hq
      obtain ⟨hfind, h1, h2, h3, h4⟩ := hchar q hq
      apply bool_eq_of_iff
      constructor
      · intro hb
        simp only [Bool.and_eq_true, decide_eq_true_eq] at hb
        have : i = F q :=
          bracket_unique hp (by omega) (by omega) hb.1 hb.2 h3 h4
        simp [this]
      · intro hb
        have hFi : F q = i := by simpa using hb
        rw [← hFi]
        simp only [Bool.and_eq_true, decide_eq_true_eq]
        exact ⟨h3, h4⟩
    rw [hfilter]
    apply List.map_congr_left
    intro q hq
    have hqmem : q ∈ qs := (List.mem_filter.mp hq).1
    have hFi : F q = i := by simpa using (List.mem_filter.mp hq).2
    obtain ⟨hfind, h1, h2, h3, h4⟩ := hchar q hqmem
    rw [← hFi]
    unfold interpValue
    simp [hfind]
  have hmem0 : qs.headD 0 ∈ qs := by
    cases qs with
    | nil => exact absurd rfl hne
    | cons a t => exact List.mem_cons_self a t
  obtain ⟨hfind0, h10, h20, h30, h40⟩ := hchar _ hmem0
  have hq0range : F (qs.headD 0) < cpf.length - 1 := by omega
  have hnot : ¬ (((List.range (cpf.length - 1)).map
      (groupOf qs cpf pos)).all (fun g => g.isEmpty) = true) := by
    intro hall
    rw [List.all_eq_true] at hall
    have hmemg : groupOf qs cpf pos (F (qs.headD 0)) ∈
        (List.range (cpf.length - 1)).map (groupOf qs cpf pos) :=
      List.mem_map_of_mem _ (List.mem_range.mpr hq0range)
    have hempty := hall _ hmemg
    rw [hgroups _ (List.mem_range.mpr hq0range)] at hempty
    rw [List.isEmpty_iff, List.map_eq_nil_iff] at hempty
    have hmemf : qs.headD 0 ∈ qs.filter fun q => F q == F (qs.headD 0) :=
      List.mem_filter.mpr ⟨hmem0, by simp⟩
    rw [hempty] at hmemf
    exact absurd hmemf (List.not_mem_nil _)
  simp only [interp_ephem_group]
  rw [if_neg hnot]
  congr 1
  rw [List.map_congr_left hgroups]
  have hcomp : (List.range (cpf.length - 1)).map
        (fun i => (qs.filter fun q => F q == i).map (interpValue cpf pos)) =
      ((List.range (cpf.length - 1)).map
        (fun i => qs.filter fun q => F q == i)).map
          (List.map (interpValue cpf pos)) := by
    rw [List.map_map]
    rfl
  rw [hcomp, ← List.map_flatten]
  congr 1
  apply flatten_range_filter F qs
  · refine List.Pairwise.imp_of_mem ?_ hqs
    intro a b ha hb hab
    by_contra hFF
    push_neg at hFF
    obtain ⟨hfa, ha1, ha2, ha3, ha4⟩ := hchar a ha
    obtain ⟨hfb, hb1, hb2, hb3, hb4⟩ := hchar b hb
    have : cpf.getD (F b + 1) 0 ≤ cpf.getD (F a) 0 :=
      getD_le_of_pairwise hp (by omega) (by omega)
    linarith
  · intro a ha
    obtain ⟨hfa, ha1, ha2, ha3, ha4⟩ := hchar a ha
    omega

/-- `interp_ephem` succeeds on sorted in-range queries, whichever branch
the shape dispatch selects, and computes the stencil value per query. -/
theorem interp_ephem_eq {cpf : List ℚ} {pos : List Vec3} {qs : List ℚ}
    (hp : List.Pairwise (· < ·) cpf) (hn : 10 ≤ cpf.length)
    (hlen : pos.length = cpf.length) (hqs : List.Pairwise (· ≤ ·) qs)
    (hr : ∀ q ∈ qs, InRange cpf q) :
    interp_ephem qs cpf pos = some (qs.map (interpValue cpf pos)) := by
  unfold interp_ephem
  split
  · apply interp_group_eq hp hn hlen hqs hr
    intro hnil
    rename_i hlt
    rw [hnil] at hlt
    simp at hlt
  · exact interp_loop_eq hp hn hlen hr

/-- C2: for every source table and every sorted, in-range query array —
whatever its shape, including more query times than source samples — a
query that exactly equals the quasi-time of an interior source sample
makes `interp_ephem` return exactly that sample's stored position. -/
theorem interp_exact_match {cpf : List ℚ} {pos : List Vec3} {qs : List ℚ}
    (hp : List.Pairwise (· < ·) cpf) (hn : 10 ≤ cpf.length)
    (hlen : pos.length = cpf.length) (hqs : List.Pairwise (· ≤ ·) qs)
    (hr : ∀ q ∈ qs, InRange cpf q) (i j : ℕ)
    (hi : i < cpf.length) (hj : j < qs.length)
    (hqj : qs.getD j 0 = cpf.getD i 0) :
    ∃ res, interp_ephem qs cpf pos = some res ∧
      res.getD j default = pos.getD i default := by
  refine ⟨qs.map (interpValue cpf pos), interp_ephem_eq hp hn hlen hqs hr, ?_⟩
  have hjm : qs.getD j 0 ∈ qs := by
    rw [List.getD_eq_getElem qs 0 hj]
    exact List.getElem_mem hj
  have hri := hr _ hjm
  have h4i : 4 ≤ i := by
    by_contra hlt
    push_neg at hlt
    have hc : cpf.getD i 0 < cpf.getD 4 0 :=
      getD_lt_of_pairwise hp (by omega) (by omega)
    have h1 := hri.1
    rw [hqj] at h1
    linarith
  have h6i : i + 6 ≤ cpf.length := by
    by_contra hge
    push_neg at hge
    have hge5 : cpf.length - 5 ≤ i := by omega
    have hc : cpf.getD (cpf.length - 5) 0 ≤ cpf.getD i 0 :=
      getD_le_of_pairwise hp hge5 hi
    have h2 := hri.2
    rw [hqj] at h2
    linarith
  have hmaplen : j < (qs.map (interpValue cpf pos)).length := by
    rw [List.length_map]; exact hj
  rw [List.getD_eq_getElem _ default hmaplen, List.getElem_map]
  obtain ⟨b, hfind, hb4, hb6, hle, hlt2⟩ := bracketIdx_char hp hn hri.1 hri.2
  have hchari1 : cpf.getD i 0 ≤ qs.getD j 0 := le_of_eq hqj.symm
  have hchari2 : qs.getD j 0 < cpf.getD (i + 1) 0 := by
    rw [hqj]; exact getD_lt_of_pairwise hp (by omega) (by omega)
  have hbi : i = b :=
    bracket_unique hp (by omega) (by omega) hchari1 hchari2 hle hlt2
  subst hbi
  have hqget : qs[j] = cpf.getD i 0 := by
    rw [← List.getD_eq_getElem qs 0 hj]; exact hqj
  rw [hqget]
  rw [hqj] at hfind
  unfold interpValue
  simp only [hfind]
  rw [pySlice_interior cpf i h4i h6i, pySlice_interior pos i h4i (by omega)]
  exact interpValue_at_sample hp hlen h4i h6i

/-- C9: on any sorted, in-range, nonempty query array over the same
source table, the grouped branch (taken when the number of queries
exceeds the number of samples) and the per-query loop branch of
`interp_ephem` compute the same position sequence. -/
theorem interp_branches_agree {cpf : List ℚ} {pos : List Vec3} {qs : List ℚ}
    (hp : List.Pairwise (· < ·) cpf) (hn : 10 ≤ cpf.length)
    (hlen : pos.length = cpf.length) (hqs : List.Pairwise (· ≤ ·) qs)
    (hr : ∀ q ∈ qs, InRange cpf q) (hne : qs ≠ []) :
    interp_ephem_group qs cpf pos = interp_ephem_loop qs cpf pos := by
  rw [interp_group_eq hp hn hlen hqs hr hne, interp_loop_eq hp hn hlen hr]

/-- A concrete ten-sample source table used to witness the interpolation
theorems. -/
def cpfSample : List ℚ := [0, 1, 2, 3, 4, 5, 6, 7, 8, 9]

/-- Concrete stored positions for `cpfSample`. -/
def posSample : List Vec3 :=
  [⟨0, 0, 0⟩, ⟨1, 0, 0⟩, ⟨2, 0, 0⟩, ⟨3, 0, 0⟩, ⟨4, 0, 0⟩,
    ⟨5, 0, 0⟩, ⟨6, 0, 0⟩, ⟨7, 0, 0⟩, ⟨8, 0, 0⟩, ⟨9, 0, 0⟩]

theorem interp_exact_match_witness :
    ∃ res, interp_ephem [(4 : ℚ)] cpfSample posSample = some res ∧
      res.getD 0 default = posSample.getD 4 default :=
  @interp_exact_match cpfSample posSample [(4 : ℚ)] (by decide) (by decide)
    (by decide) (by decide) (by decide) 4 0 (by decide) (by decide) (by decide)

theorem interp_branches_agree_witness :
    interp_ephem_group [(4 : ℚ), 4] cpfSample posSample =
      interp_ephem_loop [(4 : ℚ), 4] cpfSample posSample :=
  @interp_branches_agree cpfSample posSample [(4 : ℚ), 4] (by decide)
    (by decide) (by decide) (by decide) (by decide) (by decide)

/-- The parsed CPF ephemeris columns fed to `cpf_interpolate`
(`ts_utc_cpf`, `ts_mjd_cpf`, `ts_sod_cpf`, `leap_second_cpf`,
`positions_cpf`); `utc` is the sample instant on the real timeline, the
value astropy compares `t_start`/`t_end` against. -/
structure CpfTable where
  utc : List ℚ
  mjd : List ℤ
  sod : List ℚ
  leap : List ℤ
  pos : List Vec3

/-- Lines 67-83 of `cpf_interpolate`: leap seconds for the output grid
are zero unless the source table contains a leap transition
(`np.diff(leap_second_cpf).nonzero()[0][0] + 1`); if some grid instant
falls on the boundary MJD, the flagged value is applied from the first
such instant on. `none` models the IndexError when the flags are nonzero
but constant. -/
def propagate_leap (leap_cpf mjd_cpf grid_mjd : List ℤ) : Option (List ℤ) :=
  if leap_cpf.any (fun v => v != 0) then
    match (List.range (leap_cpf.length - 1)).find?
        (fun i => leap_cpf.getD (i + 1) 0 - leap_cpf.getD i 0 != 0) with
    | none => none
    | some i =>
      let boundary := i + 1
      let value := leap_cpf.getD boundary 0
      let mjdB := mjd_cpf.getD boundary 0
      match (List.range grid_mjd.length).find?
          (fun k => grid_mjd.getD k 0 == mjdB) with
      | none => some (List.replicate grid_mjd.length 0)
      | some leapIdx =>
          some ((List.range grid_mjd.length).map fun k =>
            if leapIdx ≤ k then value else 0)
  else some (List.replicate grid_mjd.length 0)

/-- `np.median` of an integer array, used as the reference MJD
(line 69). -/
def median (l : List ℤ) : ℚ :=
  let s := l.mergeSort fun a b => decide (a ≤ b)
  if l.length % 2 = 1 then ((s.getD (l.length / 2) 0 : ℤ) : ℚ)
  else (((s.getD (l.length / 2 - 1) 0 : ℤ) : ℚ) +
    ((s.getD (l.length / 2) 0 : ℤ) : ℚ)) / 2

def zipWith3 {α β γ δ : Type _} (f : α → β → γ → δ) :
    List α → List β → List γ → List δ
  | a :: as, b :: bs, c :: cs => f a b c :: zipWith3 f as bs cs
  | _, _, _ => []

def zipWith4 {α β γ δ ε : Type _} (f : α → β → γ → δ → ε) :
    List α → List β → List γ → List δ → List ε
  | a :: as, b :: bs, c :: cs, d :: ds => f a b c d :: zipWith4 f as bs cs ds
  | _, _, _, _ => []

def demedian (med : ℚ) (mjds : List ℤ) : List ℚ :=
  mjds.map fun m => (m : ℚ) - med

/-- Quasi-time list `dem + (sod + leap)/86400` (lines 85-86). -/
def quasiList (dem sod : List ℚ) (leap : List ℤ) : List ℚ :=
  zipWith3 (fun d s l => d + (s + (l : ℚ)) / 86400) dem sod leap

/-- `scipy.constants.speed_of_light`, exactly 299792458 m/s. -/
def c_light : ℚ := 299792458

inductive Mode
  | geometric
  | apparent
deriving DecidableEq

/-- Geometric-mode outputs of `cpf_interpolate` (line 93). -/
structure GeoOut where
  az : List ℚ
  alt : List ℚ
  r : List ℚ
  tof1 : List ℚ
deriving DecidableEq

/-- Apparent-mode outputs of `cpf_interpolate` (line 108). -/
structure AppOut where
  az_trans : List ℚ
  alt_trans : List ℚ
  delta_az : List ℚ
  delta_alt : List ℚ
  r_trans : List ℚ
  tof2 : List ℚ
deriving DecidableEq

inductive PredOut
  | geo : GeoOut → PredOut
  | app : AppOut → PredOut
deriving DecidableEq

inductive PredErr
  | outOfRange
  | internal
deriving DecidableEq

/-- Everything `cpf_interpolate` does after the range check passes
(lines 61-110).  The astropy grid construction is taken as the input
`grid` of (MJD, SoD) instants and the external `itrs2horizon` frame
transform as the per-instant projection `proj` (the code passes the
nominal grid instants as `obstime` to all three projection calls). -/
def cpf_core (tbl : CpfTable) (grid : List (ℤ × ℚ))
    (proj : ℤ × ℚ → Vec3 → ℚ × ℚ × ℚ) (mode : Mode) :
    Except PredErr PredOut :=
  let ts_mjd := grid.map Prod.fst
  let ts_sod := grid.map Prod.snd
  match propagate_leap tbl.leap tbl.mjd ts_mjd with
  | none => .error .internal
  | some leap =>
    let med := median tbl.mjd
    let ts_mjd_dem := demedian med ts_mjd
    let cpf_dem := demedian med tbl.mjd
    let ts_quasi := quasiList ts_mjd_dem ts_sod leap
    let cpf_quasi := quasiList cpf_dem tbl.sod tbl.leap
    match interp_ephem ts_quasi cpf_quasi tbl.pos with
    | none => .error .internal
    | some positions =>
      let horiz := List.zipWith proj grid positions
      let r := horiz.map fun h => h.2.2
      match mode with
      | .geometric =>
          .ok (.geo ⟨horiz.map (fun h => h.1), horiz.map (fun h => h.2.1), r,
            r.map fun x => 2 * x / c_light⟩)
      | .apparent =>
        let tau := r.map fun x => x / c_light
        let ts_quasi_trans := zipWith4
          (fun d s (l : ℤ) t => d + (s + (l : ℚ) + t) / 86400)
          ts_mjd_dem ts_sod leap tau
        let ts_quasi_recei := zipWith4
          (fun d s (l : ℤ) t => d + (s + (l : ℚ) - t) / 86400)
          ts_mjd_dem ts_sod leap tau
        match interp_ephem ts_quasi_trans cpf_quasi tbl.pos,
            interp_ephem ts_quasi_recei cpf_quasi tbl.pos with
        | some pT, some pR =>
          let hT := List.zipWith proj grid pT
          let hR := List.zipWith proj grid pR
          .ok (.app ⟨hT.map (fun h => h.1), hT.map (fun h => h.2.1),
            List.zipWith (fun a b => a - b) (hR.map fun h => h.1)
              (hT.map fun h => h.1),
            List.zipWith (fun a b => a - b) (hR.map fun h => h.2.1)
              (hT.map fun h => h.2.1),
            hT.map (fun h => h.2.2),
            (hT.map fun h => h.2.2).map fun x => 2 * x / c_light⟩)
        | _, _ => .error .internal

/-- `cpf_interpolate` (lines 55-110): range check against the 5th sample
from each end of the source table, then the prediction pipeline. -/
def cpf_interpolate (tbl : CpfTable) (t_start t_end : ℚ)
    (grid : List (ℤ × ℚ)) (proj : ℤ × ℚ → Vec3 → ℚ × ℚ × ℚ)
    (mode : Mode) : Except PredErr PredOut :=
  if t_start < tbl.utc.getD 4 0 ∨ t_end > tbl.utc.getD (tbl.utc.length - 5) 0
  then .error .outOfRange
  else cpf_core tbl grid proj mode

theorem cpf_core_ne_outOfRange (tbl : CpfTable) (grid : List (ℤ × ℚ))
    (proj : ℤ × ℚ → Vec3 → ℚ × ℚ × ℚ) (mode : Mode) :
    cpf_core tbl grid proj mode ≠ .error .outOfRange := by
  simp only [cpf_core]
  intro h
  repeat' split at h
  all_goals simp at h

/-- C5: `cpf_interpolate` raises the out-of-range error exactly when the
requested window is not inside the interpolatable interior delimited by
the 5th sample from each end of the source table; and an `Except.error`
carries no prediction output. -/
theorem cpf_range_check {tbl : CpfTable} {t_start t_end : ℚ}
    {grid : List (ℤ × ℚ)} {proj : ℤ × ℚ → Vec3 → ℚ × ℚ × ℚ} {mode : Mode}
    (hn : 10 ≤ tbl.utc.length) :
    cpf_interpolate tbl t_start t_end grid proj mode = .error .outOfRange ↔
      (t_start < tbl.utc.getD 4 0 ∨
        t_end > tbl.utc.getD (tbl.utc.length - 5) 0) := by
  unfold cpf_interpolate
  split
  · rename_i h
    exact iff_of_true rfl h
  · rename_i h
    exact iff_of_false (cpf_core_ne_outOfRange tbl grid proj mode) h

/-- A concrete source table used to witness the range check. -/
def tblSample : CpfTable :=
  ⟨cpfSample, [0, 0, 0, 0, 0, 0, 0, 0, 0, 0],
    [0, 1, 2, 3, 4, 5, 6, 7, 8, 9],
    [0, 0, 0, 0, 0, 0, 0, 0, 0, 0], posSample⟩

/-- A trivial stand-in for the external frame transform. -/
def projZero : ℤ × ℚ → Vec3 → ℚ × ℚ × ℚ := fun _ _ => (0, 0, 0)

theorem cpf_range_check_witness :
    cpf_interpolate tblSample (-1) 5 [] projZero .geometric =
      .error .outOfRange :=
  (cpf_range_check (by decide)).mpr (by decide)

/-- Adding the per-instant light time inside the quasi-time formula is
the same as shifting the nominal quasi-time by `tau/86400`. -/
theorem quasi_shift_add (dem sod : List ℚ) (leap : List ℤ) (tau : List ℚ) :
    zipWith4 (fun d s (l : ℤ) t => d + (s + (l : ℚ) + t) / 86400)
        dem sod leap tau =
      List.zipWith (fun q t => q + t / 86400) (quasiList dem sod leap) tau := by
  induction dem generalizing sod leap tau with
  | nil => rfl
  | cons a as ih =>
    cases sod with
    | nil => rfl
    | cons s ss =>
      cases leap with
      | nil => rfl
      | cons l ls =>
        cases tau with
        | nil => rfl
        | cons t tts =>
          simp only [zipWith4, quasiList, zipWith3, List.zipWith_cons_cons,
            List.cons.injEq]
          exact ⟨by ring, ih ss ls tts⟩

/-- Subtracting the per-instant light time inside the quasi-time formula
is the same as shifting the nominal quasi-time by `-tau/86400`. -/
theorem quasi_shift_sub (dem sod : List ℚ) (leap : List ℤ) (tau : List ℚ) :
    zipWith4 (fun d s (l : ℤ) t => d + (s + (l : ℚ) - t) / 86400)
        dem sod leap tau =
      List.zipWith (fun q t => q - t / 86400) (quasiList dem sod leap) tau := by
  induction dem generalizing sod leap tau with
  | nil => rfl
  | cons a as ih =>
    cases sod with
    | nil => rfl
    | cons s ss =>
      cases leap with
      | nil => rfl
      | cons l ls =>
        cases tau with
        | nil => rfl
        | cons t tts =>
          simp only [zipWith4, quasiList, zipWith3, List.zipWith_cons_cons,
            List.cons.injEq]
          exact ⟨by ring, ih ss ls tts⟩

/-- The apparent-mode prediction exactly as the spec words it: compute
the instantaneous range `r` at each nominal instant, derive the one-way
light time `tau = r/c`, interpolate the trajectory at quasi-time
`+ tau/86400` for the transmit direction and `- tau/86400` for the
receive direction — a single iteration, no convergence loop — and report
transmit azimuth/altitude, the (receive − transmit) differences, the
transmit range and time of flight `2·r_trans/c`. -/
def apparentSpec (tbl : CpfTable) (t_start t_end : ℚ)
    (grid : List (ℤ × ℚ)) (proj : ℤ × ℚ → Vec3 → ℚ × ℚ × ℚ) :
    Except PredErr PredOut :=
  if t_start < tbl.utc.getD 4 0 ∨ t_end > tbl.utc.getD (tbl.utc.length - 5) 0
  then .error .outOfRange
  else
    match propagate_leap tbl.leap tbl.mjd (grid.map Prod.fst) with
    | none => .error .internal
    | some leap =>
      let med := median tbl.mjd
      let quasi := quasiList (demedian med (grid.map Prod.fst))
        (grid.map Prod.snd) leap
      let cpf_quasi := quasiList (demedian med tbl.mjd) tbl.sod tbl.leap
      match interp_ephem quasi cpf_quasi tbl.pos with
      | none => .error .internal
      | some positions =>
        let r := (List.zipWith proj grid positions).map fun h => h.2.2
        let tau := r.map fun x => x / c_light
        match interp_ephem (List.zipWith (fun q t => q + t / 86400) quasi tau)
              cpf_quasi tbl.pos,
            interp_ephem (List.zipWith (fun q t => q - t / 86400) quasi tau)
              cpf_quasi tbl.pos with
        | some pT, some pR =>
          let hT := List.zipWith proj grid pT
          let hR := List.zipWith proj grid pR
          let az_trans := hT.map fun h => h.1
          let alt_trans := hT.map fun h => h.2.1
          let r_trans := hT.map fun h => h.2.2
          .ok (.app ⟨az_trans, alt_trans,
            List.zipWith (fun a b => a - b) (hR.map fun h => h.1) az_trans,
            List.zipWith (fun a b => a - b) (hR.map fun h => h.2.1) alt_trans,
            r_trans, r_trans.map fun x => 2 * x / c_light⟩)
        | _, _ => .error .internal

/-- C4: in apparent mode, `cpf_interpolate` is exactly the
single-iteration light-time scheme described by the spec: `tau = r/c`
from the instantaneous range, transmit position interpolated at
quasi-time `+ tau/86400`, receive position at `- tau/86400`, direction
differences reported as receive minus transmit, and time of flight
`2·(transmit range)/c`. -/
theorem cpf_interpolate_apparent_spec (tbl : CpfTable) (t_start t_end : ℚ)
    (grid : List (ℤ × ℚ)) (proj : ℤ × ℚ → Vec3 → ℚ × ℚ × ℚ) :
    cpf_interpolate tbl t_start t_end grid proj .apparent =
      apparentSpec tbl t_start t_end grid proj := by
  unfold cpf_interpolate apparentSpec cpf_core
  simp only [quasi_shift_add, quasi_shift_sub]

/-- `t_list` (visible_pass.py lines 14-35):
`np.append(np.arange(0, dt, t_step), dt)`, as integer seconds from
`t_start`. -/
def coarseGrid (dt t_step : ℕ) : List ℕ :=
  ((List.range ((dt + t_step - 1) / t_step)).map fun k => k * t_step) ++ [dt]

/-- `np.diff(sat_above_horizon).nonzero()[0]` (line 69): the indices at
which the above-cutoff series flips. -/
def flips (above : List Bool) : List ℕ :=
  (List.range (above.length - 1)).filter fun i =>
    above.getD i false != above.getD (i + 1) false

/-- Lines 73-76 of `next_pass`: synthesize a rise at index 0 when the
series starts above cutoff, and a closing set at the last index when the
boundary count is odd. -/
def boundaries (above : List Bool) : List ℕ :=
  let bs := flips above
  let bs1 := if above.getD (bs.headD 0) false then 0 :: bs else bs
  if bs1.length % 2 = 1 then bs1 ++ [above.length - 1] else bs1

/-- `reshape(len // 2, 2)` of the boundary list (line 77): consecutive
(rise, set) index pairs. -/
def chunk2 : List ℕ → List (ℕ × ℕ)
  | r :: s :: t => (r, s) :: chunk2 t
  | _ => []

/-- The 1-second refinement grid `Time(t0) + np.arange(t_step+1)`
(line 78). -/
def fineTimes (t0 t_step : ℕ) : List ℕ :=
  (List.range (t_step + 1)).map fun s => t0 + s

/-- Refined rise (line 85): the first 1-second sample above cutoff. -/
def refineRise (alt : ℕ → ℚ) (cutoff : ℚ) (t0 t_step : ℕ) : ℕ :=
  ((fineTimes t0 t_step).filter fun t => decide (cutoff < alt t)).headD 0

/-- Refined set (lines 91-94): the first above sample when the series is
still above at the end of the fine scan, otherwise the last above
sample. -/
def refineSet (alt : ℕ → ℚ) (cutoff : ℚ) (t0 t_step : ℕ) : ℕ :=
  let abv := (fineTimes t0 t_step).filter fun t => decide (cutoff < alt t)
  if cutoff < alt (t0 + t_step) then abv.headD 0 else abv.getLastD 0

/-- `next_pass` (visible_pass.py lines 37-96), with the Skyfield
altitude series abstracted as `alt` (degrees at integer seconds from
`t_start`), the window length `dt` seconds and the coarse step
`t_step`. -/
def next_pass (alt : ℕ → ℚ) (cutoff : ℚ) (dt t_step : ℕ) : List (ℕ × ℕ) :=
  let grid := coarseGrid dt t_step
  let above := grid.map fun t => decide (cutoff < alt t)
  if flips above = [] then []
  else
    (chunk2 (boundaries above)).map fun rs =>
      (refineRise alt cutoff (grid.getD rs.1 0) t_step,
        refineSet alt cutoff (grid.getD rs.2 0) t_step)

theorem mem_flips {above : List Bool} {i : ℕ} :
    i ∈ flips above ↔ i + 1 < above.length ∧
      above.getD i false ≠ above.getD (i + 1) false := by
  unfold flips
  rw [List.mem_filter, List.mem_range]
  constructor
  · rintro ⟨h1, h2⟩
    refine ⟨by omega, ?_⟩
    simpa using h2
  · rintro ⟨h1, h2⟩
    refine ⟨by omega, ?_⟩
    simpa using h2

theorem flips_sorted (above : List Bool) :
    List.Pairwise (· < ·) (flips above) :=
  (List.pairwise_lt_range _).filter _

theorem getD_lt_of_pairwise_nat {l : List ℕ}
    (hp : List.Pairwise (· < ·) l) {a b : ℕ} (hab : a < b)
    (hb : b < l.length) : l.getD a 0 < l.getD b 0 := by
  rw [List.getD_eq_getElem l 0 (show a < l.length by omega),
    List.getD_eq_getElem l 0 hb]
  exact List.pairwise_iff_get.mp hp ⟨a, by omega⟩ ⟨b, hb⟩ hab

theorem getD_le_of_pairwise_nat {l : List ℕ}
    (hp : List.Pairwise (· < ·) l) {a b : ℕ} (hab : a ≤ b)
    (hb : b < l.length) : l.getD a 0 ≤ l.getD b 0 := by
  rcases Nat.eq_or_lt_of_le hab with rfl | h
  · exact le_refl _
  · exact le_of_lt (getD_lt_of_pairwise_nat hp h hb)

theorem getD_mem {α : Type _} {l : List α} {k : ℕ} (hk : k < l.length)
    (d : α) : l.getD k d ∈ l := by
  rw [List.getD_eq_getElem l d hk]
  exact List.getElem_mem hk

theorem headD_eq_getD {α : Type _} {l : List α} (d : α) :
    l.headD d = l.getD 0 d := by
  cases l <;> rfl

theorem getLastD_eq_getD {α : Type _} {l : List α} (d : α) :
    l.getLastD d = l.getD (l.length - 1) d := by
  cases l with
  | nil => rfl
  | cons a t =>
    rw [List.getLastD_eq_getLast?, List.getLast?_eq_getElem?]
    simp [List.getD_eq_getElem?_getD]

theorem noflip_eq {above : List Bool} {i : ℕ} (h1 : i + 1 < above.length)
    (h2 : i ∉ flips above) :
    above.getD i false = above.getD (i + 1) false := by
  by_contra hne
  exact h2 (mem_flips.mpr ⟨h1, hne⟩)

theorem const_between {above : List Bool} :
    ∀ (d a : ℕ), a + d < above.length →
      (∀ m, a ≤ m → m < a + d → m ∉ flips above) →
      above.getD a false = above.getD (a + d) false := by
  intro d
  induction d with
  | zero => intro a _ _; rfl
  | succ d ih =>
    intro a hlen hgap
    have h1 : above.getD a false = above.getD (a + d) false :=
      ih a (by omega) (fun m hm1 hm2 => hgap m hm1 (by omega))
    have h2 : above.getD (a + d) false = above.getD (a + d + 1) false :=
      noflip_eq (by omega) (hgap (a + d) (by omega) (by omega))
    rw [h1, h2]
    congr 1

theorem flip_succ {above : List Bool} {i : ℕ} (h : i ∈ flips above) :
    above.getD (i + 1) false = !above.getD i false := by
  obtain ⟨h1, h2⟩ := mem_flips.mp h
  cases hv : above.getD i false <;>
    cases hw : above.getD (i + 1) false <;> simp_all

theorem flips_min {above : List Bool} {m : ℕ} (hm : m ∈ flips above) :
    (flips above).headD 0 ≤ m := by
  have hs := flips_sorted above
  cases hfl : flips above with
  | nil => rw [hfl] at hm; exact absurd hm (List.not_mem_nil m)
  | cons a t =>
    rw [hfl] at hm hs
    rcases List.mem_cons.mp hm with rfl | hmt
    · exact le_refl _
    · exact le_of_lt ((List.pairwise_cons.mp hs).1 m hmt)

/-- The value of the series at the first flip equals its value at
index 0. -/
theorem flips_head_val {above : List Bool} (hne : flips above ≠ []) :
    above.getD ((flips above).headD 0) false = above.getD 0 false := by
  set f0 := (flips above).headD 0 with hf0
  have hf0m : f0 ∈ flips above := by
    rw [hf0, headD_eq_getD]
    apply getD_mem
    cases hfl : flips above with
    | nil => exact absurd hfl hne
    | cons a t => simp
  have hlt : f0 + 1 < above.length := (mem_flips.mp hf0m).1
  have hcb := @const_between above f0 0 (by omega)
    (fun m hm1 hm2 => fun hmem => by
      have := flips_min hmem
      omega)
  have h0 : (0 : ℕ) + f0 = f0 := by omega
  rw [h0] at hcb
  exact hcb.symm

/-- Adjacent flips have opposite before-values. -/
theorem flips_adjacent {above : List Bool} {k : ℕ}
    (hk : k + 1 < (flips above).length) :
    above.getD ((flips above).getD (k + 1) 0) false =
      !above.getD ((flips above).getD k 0) false := by
  set bs := flips above with hbs
  have hfm : bs.getD k 0 ∈ flips above := hbs ▸ getD_mem (by omega) 0
  have hgm : bs.getD (k + 1) 0 ∈ flips above := hbs ▸ getD_mem hk 0
  have hfg : bs.getD k 0 < bs.getD (k + 1) 0 :=
    getD_lt_of_pairwise_nat (hbs ▸ flips_sorted above) (by omega) hk
  have hgl : bs.getD (k + 1) 0 + 1 < above.length := (mem_flips.mp hgm).1
  have hconst : above.getD (bs.getD k 0 + 1) false =
      above.getD (bs.getD (k + 1) 0) false := by
    obtain ⟨d, hd⟩ : ∃ d, bs.getD (k + 1) 0 = (bs.getD k 0 + 1) + d :=
      ⟨bs.getD (k + 1) 0 - (bs.getD k 0 + 1), by omega⟩
    rw [hd]
    apply const_between
    · omega
    · intro m hm1 hm2 hmem
      obtain ⟨⟨idx, hidx⟩, hidxeq⟩ := List.mem_iff_get.mp (hbs ▸ hmem)
      have hmg : m = bs.getD idx 0 := by
        rw [← hidxeq, List.getD_eq_getElem bs 0 hidx]; rfl
      rcases Nat.lt_trichotomy idx (k + 1) with hc | hc | hc
      · rcases Nat.lt_or_ge idx k with hc2 | hc2
        · have := getD_lt_of_pairwise_nat (hbs ▸ flips_sorted above) hc2
            (show k < bs.length by omega)
          omega
        · have hik : idx = k := by omega
          rw [hik] at hmg
          omega
      · rw [hc] at hmg
        omega
      · have := getD_lt_of_pairwise_nat (hbs ▸ flips_sorted above) hc hidx
        omega
  rw [← hconst, flip_succ hfm]

/-- Parity form of the alternation: the before-value of the `k`-th flip. -/
theorem flips_val {above : List Bool} :
    ∀ k, k < (flips above).length →
      above.getD ((flips above).getD k 0) false =
        xor (decide (k % 2 = 1)) (above.getD 0 false) := by
  intro k
  induction k with
  | zero =>
    intro hk
    have hne : flips above ≠ [] := by
      intro h
      rw [h] at hk
      simp at hk
    have := flips_head_val hne
    rw [headD_eq_getD] at this
    rw [this]
    simp
  | succ k ih =>
    intro hk
    rw [flips_adjacent hk, ih (by omega)]
    have h2 : k % 2 = 0 ∨ k % 2 = 1 := by omega
    rcases h2 with h2 | h2
    · rw [decide_eq_false (by omega : ¬ k % 2 = 1),
        decide_eq_true (by omega : (k + 1) % 2 = 1)]
      cases above.getD 0 false <;> rfl
    · rw [decide_eq_true h2, decide_eq_false (by omega : ¬ (k + 1) % 2 = 1)]
      cases above.getD 0 false <;> rfl

/-- Parity form of the series value at the last index. -/
theorem last_val {above : List Bool} (hne : flips above ≠ []) :
    above.getD (above.length - 1) false =
      xor (decide ((flips above).length % 2 = 1)) (above.getD 0 false) := by
  have hlen : 1 ≤ (flips above).length := by
    cases hfl : flips above with
    | nil => exact absurd hfl hne
    | cons a t => simp
  have hflm : (flips above).getD ((flips above).length - 1) 0 ∈ flips above :=
    getD_mem (by omega) 0
  have hfll :
      (flips above).getD ((flips above).length - 1) 0 + 1 < above.length :=
    (mem_flips.mp hflm).1
  have hconst :
      above.getD ((flips above).getD ((flips above).length - 1) 0 + 1) false =
        above.getD (above.length - 1) false := by
    obtain ⟨d, hd⟩ : ∃ d, above.length - 1 =
        ((flips above).getD ((flips above).length - 1) 0 + 1) + d :=
      ⟨above.length - 1 -
        ((flips above).getD ((flips above).length - 1) 0 + 1), by omega⟩
    rw [hd]
    apply const_between
    · omega
    · intro m hm1 hm2 hmem
      obtain ⟨⟨idx, hidx⟩, hidxeq⟩ := List.mem_iff_get.mp hmem
      have hmg : m = (flips above).getD idx 0 := by
        rw [← hidxeq, List.getD_eq_getElem _ 0 hidx]; rfl
      have hle : (flips above).getD idx 0 ≤
          (flips above).getD ((flips above).length - 1) 0 :=
        getD_le_of_pairwise_nat (flips_sorted above) (by omega) (by omega)
      omega
  rw [← hconst, flip_succ hflm,
    flips_val ((flips above).length - 1) (by omega)]
  rcases (by omega :
      (flips above).length % 2 = 0 ∨ (flips above).length % 2 = 1) with
    h2 | h2
  · rw [decide_eq_true (by omega : ((flips above).length - 1) % 2 = 1),
      decide_eq_false (by omega : ¬ (flips above).length % 2 = 1)]
    cases above.getD 0 false <;> rfl
  · rw [decide_eq_false (by omega : ¬ ((flips above).length - 1) % 2 = 1),
      decide_eq_true h2]
    cases above.getD 0 false <;> rfl

theorem chunk2_length : ∀ l : List ℕ, (chunk2 l).length = l.length / 2
  | [] => by simp [chunk2]
  | [_] => by simp [chunk2]
  | _ :: _ :: t => by
    simp only [chunk2, List.length_cons]
    rw [chunk2_length t]
    omega

theorem chunk2_getD : ∀ (l : List ℕ) (k : ℕ), 2 * k + 1 < l.length →
    (chunk2 l).getD k (0, 0) = (l.getD (2 * k) 0, l.getD (2 * k + 1) 0)
  | [], k, h => by simp at h
  | [_], k, h => by
    simp only [List.length_cons, List.length_nil] at h
    omega
  | a :: b :: t, 0, h => rfl
  | a :: b :: t, k + 1, h => by
    show (chunk2 t).getD k (0, 0) = _
    rw [chunk2_getD t k (by
      simp only [List.length_cons] at h
      omega)]
    have e1 : (a :: b :: t).getD (2 * (k + 1)) 0 = t.getD (2 * k) 0 := by
      have he : 2 * (k + 1) = 2 * k + 1 + 1 := by omega
      rw [he, List.getD_cons_succ, List.getD_cons_succ]
    have e2 : (a :: b :: t).getD (2 * (k + 1) + 1) 0 =
        t.getD (2 * k + 1) 0 := by
      have he : 2 * (k + 1) + 1 = 2 * k + 1 + 1 + 1 := by omega
      rw [he, List.getD_cons_succ, List.getD_cons_succ]
    rw [e1, e2]

/-- The boundary list of lines 73-74 before the odd-count closing
append: the flip list, with 0 prepended when the series starts above. -/
def preBoundaries (above : List Bool) : List ℕ :=
  if above.getD ((flips above).headD 0) false then 0 :: flips above
  else flips above

theorem boundaries_eq (above : List Bool) :
    boundaries above =
      if (preBoundaries above).length % 2 = 1
      then preBoundaries above ++ [above.length - 1]
      else preBoundaries above := rfl

theorem length_ge_two {above : List Bool} (hne : flips above ≠ []) :
    2 ≤ above.length := by
  cases hfl : flips above with
  | nil => exact absurd hfl hne
  | cons a t =>
    have : a ∈ flips above := by rw [hfl]; exact List.mem_cons_self a t
    have := (mem_flips.mp this).1
    omega

theorem flips_len_pos {above : List Bool} (hne : flips above ≠ []) :
    1 ≤ (flips above).length := by
  cases hfl : flips above with
  | nil => exact absurd hfl hne
  | cons a t => simp

theorem preBoundaries_len {above : List Bool} (hne : flips above ≠ []) :
    (preBoundaries above).length =
      (if above.getD 0 false then 1 else 0) + (flips above).length := by
  unfold preBoundaries
  rw [flips_head_val hne]
  split
  · simp only [List.length_cons]
    omega
  · omega

theorem preBoundaries_val0 {above : List Bool} (hne : flips above ≠ []) :
    above.getD ((preBoundaries above).getD 0 0) false =
      above.getD 0 false := by
  unfold preBoundaries
  rw [flips_head_val hne]
  split
  · rename_i h
    simpa using h
  · rw [← headD_eq_getD, flips_head_val hne]

theorem preBoundaries_val {above : List Bool} (hne : flips above ≠ [])
    {j : ℕ} (hj1 : 1 ≤ j) (hj2 : j < (preBoundaries above).length) :
    above.getD ((preBoundaries above).getD j 0) false =
      decide (j % 2 = 1) := by
  rw [preBoundaries_len hne] at hj2
  unfold preBoundaries
  rw [flips_head_val hne]
  split
  · rename_i h
    simp only [h, if_pos] at hj2
    obtain ⟨j', rfl⟩ : ∃ j', j = j' + 1 := ⟨j - 1, by omega⟩
    rw [List.getD_cons_succ, flips_val j' (by omega), h]
    rcases (by omega : j' % 2 = 0 ∨ j' % 2 = 1) with h2 | h2
    · rw [decide_eq_false (by omega : ¬ j' % 2 = 1),
        decide_eq_true (by omega : (j' + 1) % 2 = 1)]
      rfl
    · rw [decide_eq_true h2,
        decide_eq_false (by omega : ¬ (j' + 1) % 2 = 1)]
      rfl
  · rename_i h
    rw [Bool.not_eq_true] at h
    simp only [h, Bool.false_eq_true, if_neg, ite_false] at hj2
    rw [flips_val j (by omega), h]
    cases hd : decide (j % 2 = 1) <;> rfl

theorem preBoundaries_flip {above : List Bool} (hne : flips above ≠ [])
    {j : ℕ} (hj2 : j < (preBoundaries above).length)
    (hj : 1 ≤ j ∨ above.getD 0 false = false) :
    (preBoundaries above).getD j 0 ∈ flips above := by
  rw [preBoundaries_len hne] at hj2
  unfold preBoundaries
  rw [flips_head_val hne]
  split
  · rename_i h
    simp only [h, if_pos] at hj2
    rcases hj with hj | hj
    · obtain ⟨j', rfl⟩ : ∃ j', j = j' + 1 := ⟨j - 1, by omega⟩
      rw [List.getD_cons_succ]
      exact getD_mem (by omega) 0
    · rw [hj] at h
      exact absurd h (by simp)
  · rename_i h
    rw [Bool.not_eq_true] at h
    simp only [h, Bool.false_eq_true, if_neg, ite_false] at hj2
    exact getD_mem (by omega) 0

theorem preBoundaries_lt_len {above : List Bool} (hne : flips above ≠ [])
    {j : ℕ} (hj2 : j < (preBoundaries above).length) :
    (preBoundaries above).getD j 0 + 1 < above.length ∨
      ((preBoundaries above).getD j 0 = 0 ∧ 2 ≤ above.length) := by
  by_cases hj : 1 ≤ j ∨ above.getD 0 false = false
  · exact Or.inl (mem_flips.mp (preBoundaries_flip hne hj2 hj)).1
  · push_neg at hj
    obtain ⟨hj0, hA0⟩ := hj
    have hj0' : j = 0 := by omega
    subst hj0'
    right
    refine ⟨?_, length_ge_two hne⟩
    unfold preBoundaries
    rw [flips_head_val hne]
    split
    · rfl
    · rename_i h
      rw [Bool.not_eq_true] at h
      exact absurd h hA0

theorem preBoundaries_mono {above : List Bool} (hne : flips above ≠ [])
    {j : ℕ} (hj2 : j + 1 < (preBoundaries above).length) :
    (preBoundaries above).getD j 0 ≤ (preBoundaries above).getD (j + 1) 0 ∧
      (1 ≤ j ∨ above.getD 0 false = false →
        (preBoundaries above).getD j 0 <
          (preBoundaries above).getD (j + 1) 0) := by
  rw [preBoundaries_len hne] at hj2
  unfold preBoundaries
  rw [flips_head_val hne]
  split
  · rename_i h
    simp only [h, if_pos] at hj2
    cases j with
    | zero =>
      refine ⟨by simp, ?_⟩
      rintro (hc | hc)
      · omega
      · rw [hc] at h
        exact absurd h (by simp)
    | succ j' =>
      simp only [List.getD_cons_succ]
      have := getD_lt_of_pairwise_nat (flips_sorted above)
        (show j' < j' + 1 by omega) (by omega)
      exact ⟨le_of_lt this, fun _ => this⟩
  · rename_i h
    rw [Bool.not_eq_true] at h
    simp only [h, Bool.false_eq_true, if_neg, ite_false] at hj2
    have := getD_lt_of_pairwise_nat (flips_sorted above)
      (show j < j + 1 by omega) (by omega)
    exact ⟨le_of_lt this, fun _ => this⟩

/-- The closing element is appended exactly when the series ends above
cutoff. -/
theorem preBoundaries_parity {above : List Bool} (hne : flips above ≠ []) :
    ((preBoundaries above).length % 2 = 1 ↔
      above.getD (above.length - 1) false = true) := by
  rw [preBoundaries_len hne, last_val hne]
  cases hA0 : above.getD 0 false with
  | false =>
    simp only [Bool.false_eq_true, if_neg, ite_false]
    rcases (by omega :
        (flips above).length % 2 = 0 ∨ (flips above).length % 2 = 1) with
      h2 | h2
    · rw [decide_eq_false (by omega : ¬ (flips above).length % 2 = 1)]
      constructor
      · intro h; omega
      · intro h; simp at h
    · rw [decide_eq_true h2]
      constructor
      · intro _; rfl
      · intro _; omega
  | true =>
    simp only [if_pos]
    rcases (by omega :
        (flips above).length % 2 = 0 ∨ (flips above).length % 2 = 1) with
      h2 | h2
    · rw [decide_eq_false (by omega : ¬ (flips above).length % 2 = 1)]
      constructor
      · intro _; rfl
      · intro _; omega
    · rw [decide_eq_true h2]
      constructor
      · intro h; omega
      · intro h; simp at h

theorem b2_len_even {above : List Bool} (hne : flips above ≠ []) :
    (boundaries above).length % 2 = 0 := by
  rw [boundaries_eq]
  split
  · rename_i hodd
    simp only [List.length_append, List.length_singleton]
    omega
  · rename_i heven
    omega

theorem b2_len_ge2 {above : List Bool} (hne : flips above ≠ []) :
    2 ≤ (boundaries above).length := by
  have h1 : 1 ≤ (preBoundaries above).length := by
    rw [preBoundaries_len hne]
    have := flips_len_pos hne
    split <;> omega
  rw [boundaries_eq]
  split
  · rename_i hodd
    simp only [List.length_append, List.length_singleton]
    omega
  · rename_i heven
    omega

theorem b2_getD_pre {above : List Bool} {j : ℕ}
    (hj : j < (preBoundaries above).length) :
    (boundaries above).getD j 0 = (preBoundaries above).getD j 0 := by
  rw [boundaries_eq]
  split
  · exact List.getD_append _ _ 0 j hj
  · rfl

theorem b2_getD_lt {above : List Bool} (hne : flips above ≠ []) {j : ℕ}
    (hj : j < (boundaries above).length) :
    (boundaries above).getD j 0 < above.length := by
  have hL := length_ge_two hne
  rw [boundaries_eq] at hj ⊢
  split at hj <;> rename_i hpar
  · simp only [List.length_append, List.length_singleton] at hj
    rw [if_pos hpar]
    rcases Nat.lt_or_ge j (preBoundaries above).length with hc | hc
    · rw [List.getD_append _ _ 0 j hc]
      rcases preBoundaries_lt_len hne hc with h | h
      · omega
      · omega
    · have hj' : j = (preBoundaries above).length := by omega
      rw [hj', List.getD_append_right _ _ 0 _ (le_refl _)]
      simp
      omega
  · rw [if_neg hpar]
    rcases preBoundaries_lt_len hne hj with h | h
    · omega
    · omega

theorem b2_odd_val {above : List Bool} (hne : flips above ≠ []) {j : ℕ}
    (hj : j < (boundaries above).length) (hodd : j % 2 = 1) :
    above.getD ((boundaries above).getD j 0) false = true := by
  rw [boundaries_eq] at hj ⊢
  split at hj <;> rename_i hpar
  · simp only [List.length_append, List.length_singleton] at hj
    rw [if_pos hpar]
    rcases Nat.lt_or_ge j (preBoundaries above).length with hc | hc
    · rw [List.getD_append _ _ 0 j hc]
      rw [preBoundaries_val hne (by omega) hc]
      exact decide_eq_true hodd
    · have hj' : j = (preBoundaries above).length := by omega
      rw [hj', List.getD_append_right _ _ 0 _ (le_refl _)]
      simp only [Nat.sub_self, List.getD_cons_zero]
      exact (preBoundaries_parity hne).mp hpar
  · rw [if_neg hpar]
    rw [preBoundaries_val hne (by omega) hj]
    exact decide_eq_true hodd

theorem b2_even_val {above : List Bool} (hne : flips above ≠ []) {j : ℕ}
    (hj : j < (boundaries above).length) (heven : j % 2 = 0) :
    above.getD ((boundaries above).getD j 0) false = true ∨
      (boundaries above).getD j 0 ∈ flips above := by
  have hjpre : j < (preBoundaries above).length := by
    rw [boundaries_eq] at hj
    split at hj <;> rename_i hpar
    · simp only [List.length_append, List.length_singleton] at hj
      rcases Nat.lt_or_ge j (preBoundaries above).length with hc | hc
      · exact hc
      · exfalso
        have : j = (preBoundaries above).length := by omega
        omega
    · exact hj
  rw [b2_getD_pre hjpre]
  cases j with
  | zero =>
    rw [preBoundaries_val0 hne]
    cases hA0 : above.getD 0 false with
    | true => exact Or.inl rfl
    | false =>
      right
      exact preBoundaries_flip hne hjpre (Or.inr hA0)
  | succ j' =>
    exact Or.inr (preBoundaries_flip hne hjpre (Or.inl (by omega)))

theorem b2_odd_flip {above : List Bool} (hne : flips above ≠ []) {j : ℕ}
    (hj : j + 1 < (boundaries above).length) (hodd : j % 2 = 1) :
    (boundaries above).getD j 0 ∈ flips above := by
  have hjpre : j < (preBoundaries above).length := by
    rw [boundaries_eq] at hj
    split at hj <;> rename_i hpar
    · simp only [List.length_append, List.length_singleton] at hj
      omega
    · omega
  rw [b2_getD_pre hjpre]
  exact preBoundaries_flip hne hjpre (Or.inl (by omega))

theorem b2_even_flip {above : List Bool} (hne : flips above ≠ []) {j : ℕ}
    (h2 : 2 ≤ j) (hj : j < (boundaries above).length) (heven : j % 2 = 0) :
    (boundaries above).getD j 0 ∈ flips above := by
  have hjpre : j < (preBoundaries above).length := by
    rw [boundaries_eq] at hj
    split at hj <;> rename_i hpar
    · simp only [List.length_append, List.length_singleton] at hj
      rcases Nat.lt_or_ge j (preBoundaries above).length with hc | hc
      · exact hc
      · exfalso
        have : j = (preBoundaries above).length := by omega
        omega
    · exact hj
  rw [b2_getD_pre hjpre]
  exact preBoundaries_flip hne hjpre (Or.inl (by omega))

theorem b2_mono {above : List Bool} (hne : flips above ≠ []) {j : ℕ}
    (hj : j + 1 < (boundaries above).length) :
    (boundaries above).getD j 0 ≤ (boundaries above).getD (j + 1) 0 := by
  rw [boundaries_eq] at hj ⊢
  split at hj <;> rename_i hpar
  · simp only [List.length_append, List.length_singleton] at hj
    rw [if_pos hpar]
    rcases Nat.lt_or_ge (j + 1) (preBoundaries above).length with hc | hc
    · rw [List.getD_append _ _ 0 j (by omega), List.getD_append _ _ 0 _ hc]
      exact (preBoundaries_mono hne hc).1
    · have hj1 : j + 1 = (preBoundaries above).length := by omega
      rw [List.getD_append _ _ 0 j (by omega), hj1,
        List.getD_append_right _ _ 0 _ (le_refl _)]
      simp only [Nat.sub_self, List.getD_cons_zero]
      rcases preBoundaries_lt_len hne (show j < _ by omega) with h | h
      · omega
      · omega
  · rw [if_neg hpar]
    exact (preBoundaries_mono hne hj).1

theorem b2_strict {above : List Bool} (hne : flips above ≠ []) {j : ℕ}
    (hj : j + 1 < (boundaries above).length)
    (hcase : 1 ≤ j ∨ above.getD ((boundaries above).getD 0 0) false = false) :
    (boundaries above).getD j 0 < (boundaries above).getD (j + 1) 0 := by
  have hA0case : 1 ≤ j ∨ above.getD 0 false = false := by
    rcases hcase with h | h
    · exact Or.inl h
    · right
      have h0pre : (0 : ℕ) < (preBoundaries above).length := by
        rw [preBoundaries_len hne]
        have := flips_len_pos hne
        split <;> omega
      rw [b2_getD_pre h0pre, preBoundaries_val0 hne] at h
      exact h
  rw [boundaries_eq] at hj ⊢
  split at hj <;> rename_i hpar
  · simp only [List.length_append, List.length_singleton] at hj
    rw [if_pos hpar]
    rcases Nat.lt_or_ge (j + 1) (preBoundaries above).length with hc | hc
    · rw [List.getD_append _ _ 0 j (by omega), List.getD_append _ _ 0 _ hc]
      exact (preBoundaries_mono hne hc).2 hA0case
    · have hj1 : j + 1 = (preBoundaries above).length := by omega
      rw [List.getD_append _ _ 0 j (by omega), hj1,
        List.getD_append_right _ _ 0 _ (le_refl _)]
      simp only [Nat.sub_self, List.getD_cons_zero]
      have hjpre : j < (preBoundaries above).length := by omega
      have hflip : (preBoundaries above).getD j 0 ∈ flips above :=
        preBoundaries_flip hne hjpre (by
          rcases hA0case with h | h
          · exact Or.inl h
          · exact Or.inr h)
      have := (mem_flips.mp hflip).1
      omega
  · rw [if_neg hpar]
    exact (preBoundaries_mono hne hj).2 hA0case

theorem b2_last {above : List Bool} (hne : flips above ≠ [])
    (hT : above.getD (above.length - 1) false = true) :
    (boundaries above).getD ((boundaries above).length - 1) 0 =
      above.length - 1 := by
  have hpar := (preBoundaries_parity hne).mpr hT
  rw [boundaries_eq, if_pos hpar]
  simp only [List.length_append, List.length_singleton]
  have : (preBoundaries above).length + 1 - 1 = (preBoundaries above).length :=
    by omega
  rw [this, List.getD_append_right _ _ 0 _ (le_refl _)]
  simp

theorem getD_map' {α β : Type _} (f : α → β) (l : List α) (d : β) (d' : α)
    {j : ℕ} (hj : j < l.length) :
    (l.map f).getD j d = f (l.getD j d') := by
  rw [List.getD_eq_getElem _ d (by simpa using hj),
    List.getD_eq_getElem _ d' hj, List.getElem_map]

theorem coarseGrid_length (dt t_step : ℕ) :
    (coarseGrid dt t_step).length = (dt + t_step - 1) / t_step + 1 := by
  unfold coarseGrid
  simp

theorem coarseGrid_getD_arange {dt t_step j : ℕ}
    (hj : j < (dt + t_step - 1) / t_step) :
    (coarseGrid dt t_step).getD j 0 = j * t_step := by
  unfold coarseGrid
  rw [List.getD_append _ _ 0 j (by simpa using hj)]
  rw [getD_map' _ _ 0 0 (by simpa using hj)]
  congr 1
  rw [List.getD_eq_getElem _ 0 (by simpa using hj), List.getElem_range]

theorem coarseGrid_getD_last (dt t_step : ℕ) :
    (coarseGrid dt t_step).getD ((dt + t_step - 1) / t_step) 0 = dt := by
  unfold coarseGrid
  rw [List.getD_append_right _ _ 0 _ (by simp)]
  simp

theorem coarse_m_mul {dt t_step : ℕ} (hstep : 1 ≤ t_step) :
    dt ≤ ((dt + t_step - 1) / t_step) * t_step ∧
      (1 ≤ dt → ((dt + t_step - 1) / t_step - 1) * t_step < dt ∧
        1 ≤ (dt + t_step - 1) / t_step) := by
  have hdm := Nat.div_add_mod (dt + t_step - 1) t_step
  have hmod := Nat.mod_lt (dt + t_step - 1) (show 0 < t_step by omega)
  rw [Nat.mul_comm] at hdm
  constructor
  · omega
  · intro hdt
    have hq1 : 1 ≤ (dt + t_step - 1) / t_step :=
      (Nat.one_le_div_iff (by omega)).mpr (by omega)
    refine ⟨?_, hq1⟩
    obtain ⟨q', hq'⟩ : ∃ q', (dt + t_step - 1) / t_step = q' + 1 :=
      ⟨(dt + t_step - 1) / t_step - 1, by omega⟩
    rw [hq'] at hdm ⊢
    have hmul : (q' + 1) * t_step = q' * t_step + t_step := by ring
    rw [hmul] at hdm
    simp only [Nat.add_sub_cancel]
    omega

theorem coarseGrid_mono {dt t_step : ℕ} (hstep : 1 ≤ t_step) {j k : ℕ}
    (hjk : j ≤ k) (hk : k < (coarseGrid dt t_step).length) :
    (coarseGrid dt t_step).getD j 0 ≤ (coarseGrid dt t_step).getD k 0 := by
  rw [coarseGrid_length] at hk
  rcases Nat.lt_or_ge k ((dt + t_step - 1) / t_step) with hc | hc
  · rw [coarseGrid_getD_arange hc, coarseGrid_getD_arange (by omega)]
    exact Nat.mul_le_mul_right _ hjk
  · have hkm : k = (dt + t_step - 1) / t_step := by omega
    subst hkm
    rw [coarseGrid_getD_last]
    rcases Nat.eq_or_lt_of_le hjk with rfl | hj
    · rw [coarseGrid_getD_last]
    · rw [coarseGrid_getD_arange hj]
      rcases Nat.eq_zero_or_pos dt with rfl | hdt
      · have h0 : (0 + t_step - 1) / t_step = 0 :=
          Nat.div_eq_of_lt (by omega)
        rw [h0] at hj
        omega
      · have h2 : j * t_step ≤ ((dt + t_step - 1) / t_step - 1) * t_step :=
          Nat.mul_le_mul_right _ (by omega)
        have h3 := ((@coarse_m_mul dt _ hstep).2 hdt).1
        omega

theorem coarseGrid_spacing_le {dt t_step : ℕ} (hstep : 1 ≤ t_step) {j : ℕ}
    (hj : j + 1 < (coarseGrid dt t_step).length) :
    (coarseGrid dt t_step).getD (j + 1) 0 ≤
      (coarseGrid dt t_step).getD j 0 + t_step := by
  rw [coarseGrid_length] at hj
  rcases Nat.lt_or_ge (j + 1) ((dt + t_step - 1) / t_step) with hc | hc
  · rw [coarseGrid_getD_arange hc, coarseGrid_getD_arange (by omega)]
    rw [Nat.succ_mul]
  · have hj1 : j + 1 = (dt + t_step - 1) / t_step := by omega
    rw [hj1, coarseGrid_getD_last, coarseGrid_getD_arange (by omega)]
    have h1 := (@coarse_m_mul dt _ hstep).1
    have h2 : ((dt + t_step - 1) / t_step) * t_step =
        j * t_step + t_step := by
      rw [← hj1, Nat.succ_mul]
    omega

theorem coarseGrid_spacing_eq {dt t_step : ℕ} {j : ℕ}
    (hj : j + 2 < (coarseGrid dt t_step).length) :
    (coarseGrid dt t_step).getD (j + 1) 0 =
      (coarseGrid dt t_step).getD j 0 + t_step := by
  rw [coarseGrid_length] at hj
  rw [coarseGrid_getD_arange (by omega), coarseGrid_getD_arange (by omega)]
  rw [Nat.succ_mul]

theorem fineTimes_mem {t0 k t : ℕ} :
    t ∈ fineTimes t0 k ↔ ∃ s, s ≤ k ∧ t = t0 + s := by
  unfold fineTimes
  rw [List.mem_map]
  constructor
  · rintro ⟨s, hs, rfl⟩
    exact ⟨s, by have := List.mem_range.mp hs; omega, rfl⟩
  · rintro ⟨s, hs, rfl⟩
    exact ⟨s, List.mem_range.mpr (by omega), rfl⟩

theorem fineTimes_sorted (t0 k : ℕ) :
    List.Pairwise (· < ·) (fineTimes t0 k) := by
  unfold fineTimes
  rw [List.pairwise_map]
  exact (List.pairwise_lt_range _).imp (by omega)

theorem fineTimes_head (t0 k : ℕ) :
    fineTimes t0 k = t0 :: ((List.range k).map fun s => t0 + (s + 1)) := by
  unfold fineTimes
  rw [List.range_succ_eq_map, List.map_cons, List.map_map]
  congr 1

theorem headD_mem {α : Type _} {l : List α} (hne : l ≠ []) (d : α) :
    l.headD d ∈ l := by
  cases l with
  | nil => exact absurd rfl hne
  | cons a t => simp

theorem getLastD_mem {α : Type _} {l : List α} (hne : l ≠ []) (d : α) :
    l.getLastD d ∈ l := by
  rw [getLastD_eq_getD]
  apply getD_mem
  cases l with
  | nil => exact absurd rfl hne
  | cons a t => simp

theorem filter_headD_le {l : List ℕ} (hs : List.Pairwise (· < ·) l)
    {p : ℕ → Bool} {x : ℕ} (hx : x ∈ l.filter p) :
    (l.filter p).headD 0 ≤ x := by
  have hsf : List.Pairwise (· < ·) (l.filter p) := hs.filter p
  cases hf : l.filter p with
  | nil => rw [hf] at hx; cases hx
  | cons a t =>
    rw [hf] at hx hsf
    rcases List.mem_cons.mp hx with rfl | hxt
    · simp
    · simp only [List.headD_cons]
      exact le_of_lt ((List.pairwise_cons.mp hsf).1 x hxt)

theorem refineRise_at_start {alt : ℕ → ℚ} {cutoff : ℚ} {t0 k : ℕ}
    (h : cutoff < alt t0) : refineRise alt cutoff t0 k = t0 := by
  unfold refineRise
  rw [fineTimes_head, List.filter_cons_of_pos (by simpa using h)]
  rfl

theorem refineRise_bounds {alt : ℕ → ℚ} {cutoff : ℚ} {t0 k : ℕ}
    {s : ℕ} (hs : s ≤ k) (h : cutoff < alt (t0 + s)) :
    t0 ≤ refineRise alt cutoff t0 k ∧
      refineRise alt cutoff t0 k ≤ t0 + s ∧
      cutoff < alt (refineRise alt cutoff t0 k) := by
  have hwmem : t0 + s ∈ (fineTimes t0 k).filter
      fun t => decide (cutoff < alt t) :=
    List.mem_filter.mpr ⟨fineTimes_mem.mpr ⟨s, hs, rfl⟩, by simpa using h⟩
  have hne : (fineTimes t0 k).filter (fun t => decide (cutoff < alt t)) ≠ [] :=
    List.ne_nil_of_mem hwmem
  have hmem : refineRise alt cutoff t0 k ∈
      (fineTimes t0 k).filter fun t => decide (cutoff < alt t) :=
    headD_mem hne 0
  obtain ⟨hmemf, hpred⟩ := List.mem_filter.mp hmem
  obtain ⟨s', hs', heq⟩ := fineTimes_mem.mp hmemf
  refine ⟨by omega, ?_, by simpa using hpred⟩
  exact filter_headD_le (fineTimes_sorted t0 k) hwmem

theorem refineSet_at_start {alt : ℕ → ℚ} {cutoff : ℚ} {t0 k : ℕ}
    (h0 : cutoff < alt t0) (hk : cutoff < alt (t0 + k)) :
    refineSet alt cutoff t0 k = t0 := by
  unfold refineSet
  rw [if_pos hk, fineTimes_head, List.filter_cons_of_pos (by simpa using h0)]
  rfl

theorem refineSet_bounds {alt : ℕ → ℚ} {cutoff : ℚ} {t0 k : ℕ}
    (h0 : cutoff < alt t0) :
    t0 ≤ refineSet alt cutoff t0 k ∧ refineSet alt cutoff t0 k ≤ t0 + k := by
  have hwmem : t0 ∈ (fineTimes t0 k).filter fun t => decide (cutoff < alt t) :=
    List.mem_filter.mpr ⟨fineTimes_mem.mpr ⟨0, by omega, by omega⟩,
      by simpa using h0⟩
  have hne : (fineTimes t0 k).filter (fun t => decide (cutoff < alt t)) ≠ [] :=
    List.ne_nil_of_mem hwmem
  have hmem : refineSet alt cutoff t0 k ∈
      (fineTimes t0 k).filter fun t => decide (cutoff < alt t) := by
    unfold refineSet
    split
    · exact headD_mem hne 0
    · exact getLastD_mem hne 0
  obtain ⟨hmemf, _⟩ := List.mem_filter.mp hmem
  obtain ⟨s', hs', heq⟩ := fineTimes_mem.mp hmemf
  omega

theorem refineSet_lt_end {alt : ℕ → ℚ} {cutoff : ℚ} {t0 k : ℕ}
    (h0 : cutoff < alt t0) (hk : ¬ cutoff < alt (t0 + k)) :
    refineSet alt cutoff t0 k + 1 ≤ t0 + k := by
  have hwmem : t0 ∈ (fineTimes t0 k).filter fun t => decide (cutoff < alt t) :=
    List.mem_filter.mpr ⟨fineTimes_mem.mpr ⟨0, by omega, by omega⟩,
      by simpa using h0⟩
  have hne : (fineTimes t0 k).filter (fun t => decide (cutoff < alt t)) ≠ [] :=
    List.ne_nil_of_mem hwmem
  have hmem : refineSet alt cutoff t0 k ∈
      (fineTimes t0 k).filter fun t => decide (cutoff < alt t) := by
    unfold refineSet
    rw [if_neg hk]
    exact getLastD_mem hne 0
  obtain ⟨hmemf, hpred⟩ := List.mem_filter.mp hmem
  obtain ⟨s', hs', heq⟩ := fineTimes_mem.mp hmemf
  have hne2 : refineSet alt cutoff t0 k ≠ t0 + k := by
    intro he
    rw [he] at hpred
    exact hk (by simpa using hpred)
  omega

/-- The coarse above-cutoff series of `next_pass` (line 68). -/
def aboveList (alt : ℕ → ℚ) (cutoff : ℚ) (dt t_step : ℕ) : List Bool :=
  (coarseGrid dt t_step).map fun t => decide (cutoff < alt t)

/-- Boundary index `j` of the pass detector's boundary list. -/
def b2Idx (alt : ℕ → ℚ) (cutoff : ℚ) (dt t_step j : ℕ) : ℕ :=
  (boundaries (aboveList alt cutoff dt t_step)).getD j 0

/-- Refined rise time of the `k`-th detected pass. -/
def riseTime (alt : ℕ → ℚ) (cutoff : ℚ) (dt t_step k : ℕ) : ℕ :=
  refineRise alt cutoff
    ((coarseGrid dt t_step).getD (b2Idx alt cutoff dt t_step (2 * k)) 0) t_step

/-- Refined set time of the `k`-th detected pass. -/
def setTime (alt : ℕ → ℚ) (cutoff : ℚ) (dt t_step k : ℕ) : ℕ :=
  refineSet alt cutoff
    ((coarseGrid dt t_step).getD (b2Idx alt cutoff dt t_step (2 * k + 1)) 0)
    t_step

theorem next_pass_eq (alt : ℕ → ℚ) (cutoff : ℚ) (dt t_step : ℕ) :
    next_pass alt cutoff dt t_step =
      if flips (aboveList alt cutoff dt t_step) = [] then []
      else (chunk2 (boundaries (aboveList alt cutoff dt t_step))).map fun rs =>
        (refineRise alt cutoff ((coarseGrid dt t_step).getD rs.1 0) t_step,
          refineSet alt cutoff ((coarseGrid dt t_step).getD rs.2 0) t_step) :=
  rfl

theorem aboveList_length (alt : ℕ → ℚ) (cutoff : ℚ) (dt t_step : ℕ) :
    (aboveList alt cutoff dt t_step).length = (coarseGrid dt t_step).length :=
  List.length_map _ _

theorem aboveList_getD {alt : ℕ → ℚ} {cutoff : ℚ} {dt t_step j : ℕ}
    (hj : j < (coarseGrid dt t_step).length) :
    (aboveList alt cutoff dt t_step).getD j false =
      decide (cutoff < alt ((coarseGrid dt t_step).getD j 0)) :=
  getD_map' _ _ false 0 hj

theorem chunk2_mem_decomp {l : List ℕ} {pr : ℕ × ℕ} (hpr : pr ∈ chunk2 l) :
    ∃ k, 2 * k + 1 < l.length ∧
      pr = (l.getD (2 * k) 0, l.getD (2 * k + 1) 0) := by
  obtain ⟨⟨k, hk⟩, hkeq⟩ := List.mem_iff_get.mp hpr
  rw [chunk2_length] at hk
  refine ⟨k, by omega, ?_⟩
  rw [← hkeq, ← chunk2_getD l k (by omega),
    List.getD_eq_getElem _ (0, 0) (by rw [chunk2_length]; omega)]
  rfl

/-- Per-pass facts: the refined rise does not exceed the refined set,
and each refined boundary lies within one coarse step of the coarse
sample it was bracketed at. -/
theorem pair_facts (alt : ℕ → ℚ) (cutoff : ℚ) (dt t_step : ℕ)
    (hstep : 1 ≤ t_step)
    (hne : flips (aboveList alt cutoff dt t_step) ≠ []) {k : ℕ}
    (hk : 2 * k + 1 < (boundaries (aboveList alt cutoff dt t_step)).length) :
    riseTime alt cutoff dt t_step k ≤ setTime alt cutoff dt t_step k ∧
    b2Idx alt cutoff dt t_step (2 * k) < (coarseGrid dt t_step).length ∧
    b2Idx alt cutoff dt t_step (2 * k + 1) < (coarseGrid dt t_step).length ∧
    (coarseGrid dt t_step).getD (b2Idx alt cutoff dt t_step (2 * k)) 0 ≤
      riseTime alt cutoff dt t_step k ∧
    riseTime alt cutoff dt t_step k ≤
      (coarseGrid dt t_step).getD (b2Idx alt cutoff dt t_step (2 * k)) 0 +
        t_step ∧
    (coarseGrid dt t_step).getD (b2Idx alt cutoff dt t_step (2 * k + 1)) 0 ≤
      setTime alt cutoff dt t_step k ∧
    setTime alt cutoff dt t_step k ≤
      (coarseGrid dt t_step).getD
        (b2Idx alt cutoff dt t_step (2 * k + 1)) 0 + t_step := by
  have hLeq := aboveList_length alt cutoff dt t_step
  have hs_lt : b2Idx alt cutoff dt t_step (2 * k + 1) <
      (coarseGrid dt t_step).length := by
    rw [← hLeq]
    exact b2_getD_lt hne hk
  have hr_lt : b2Idx alt cutoff dt t_step (2 * k) <
      (coarseGrid dt t_step).length := by
    rw [← hLeq]
    exact b2_getD_lt hne (by omega)
  have hsA : (aboveList alt cutoff dt t_step).getD
      (b2Idx alt cutoff dt t_step (2 * k + 1)) false = true :=
    b2_odd_val hne hk (by omega)
  rw [aboveList_getD hs_lt] at hsA
  have hsalt : cutoff < alt ((coarseGrid dt t_step).getD
      (b2Idx alt cutoff dt t_step (2 * k + 1)) 0) := of_decide_eq_true hsA
  have hr_le_s : b2Idx alt cutoff dt t_step (2 * k) ≤
      b2Idx alt cutoff dt t_step (2 * k + 1) := b2_mono hne hk
  have hsetb := @refineSet_bounds alt _ _ t_step hsalt
  cases hvr : (aboveList alt cutoff dt t_step).getD
      (b2Idx alt cutoff dt t_step (2 * k)) false with
  | true =>
    rw [aboveList_getD hr_lt] at hvr
    have hralt := of_decide_eq_true hvr
    have hrise : riseTime alt cutoff dt t_step k =
        (coarseGrid dt t_step).getD (b2Idx alt cutoff dt t_step (2 * k)) 0 :=
      refineRise_at_start hralt
    have c1 : riseTime alt cutoff dt t_step k ≤
        setTime alt cutoff dt t_step k := by
      rw [hrise]
      exact le_trans (coarseGrid_mono hstep hr_le_s hs_lt) hsetb.1
    have c4 : (coarseGrid dt t_step).getD
        (b2Idx alt cutoff dt t_step (2 * k)) 0 ≤
        riseTime alt cutoff dt t_step k := by
      rw [hrise]
    have c5 : riseTime alt cutoff dt t_step k ≤
        (coarseGrid dt t_step).getD
          (b2Idx alt cutoff dt t_step (2 * k)) 0 + t_step := by
      rw [hrise]
      omega
    exact ⟨c1, hr_lt, hs_lt, c4, c5, hsetb.1, hsetb.2⟩
  | false =>
    have hflip : b2Idx alt cutoff dt t_step (2 * k) ∈
        flips (aboveList alt cutoff dt t_step) := by
      rcases b2_even_val hne (show 2 * k <
          (boundaries (aboveList alt cutoff dt t_step)).length by omega)
          (by omega) with h | h
      · have h2 : (aboveList alt cutoff dt t_step).getD
            (b2Idx alt cutoff dt t_step (2 * k)) false = true := h
        rw [h2] at hvr
        cases hvr
      · exact h
    have hr1_lt : b2Idx alt cutoff dt t_step (2 * k) + 1 <
        (aboveList alt cutoff dt t_step).length := (mem_flips.mp hflip).1
    have hr1A : (aboveList alt cutoff dt t_step).getD
        (b2Idx alt cutoff dt t_step (2 * k) + 1) false = true := by
      rw [flip_succ hflip, hvr]
      rfl
    rw [aboveList_getD (by omega)] at hr1A
    have hr1alt := of_decide_eq_true hr1A
    have hr_lt_s : b2Idx alt cutoff dt t_step (2 * k) <
        b2Idx alt cutoff dt t_step (2 * k + 1) := by
      apply b2_strict hne hk
      rcases Nat.eq_zero_or_pos k with rfl | hkpos
      · right
        exact hvr
      · left; omega
    have hspace : (coarseGrid dt t_step).getD
          (b2Idx alt cutoff dt t_step (2 * k) + 1) 0 ≤
        (coarseGrid dt t_step).getD (b2Idx alt cutoff dt t_step (2 * k)) 0 +
          t_step := coarseGrid_spacing_le hstep (by omega)
    have hmono01 : (coarseGrid dt t_step).getD
          (b2Idx alt cutoff dt t_step (2 * k)) 0 ≤
        (coarseGrid dt t_step).getD
          (b2Idx alt cutoff dt t_step (2 * k) + 1) 0 :=
      coarseGrid_mono hstep (by omega) (by omega)
    obtain ⟨s0, hs0⟩ : ∃ s0,
        (coarseGrid dt t_step).getD
            (b2Idx alt cutoff dt t_step (2 * k) + 1) 0 =
          (coarseGrid dt t_step).getD
            (b2Idx alt cutoff dt t_step (2 * k)) 0 + s0 :=
      ⟨(coarseGrid dt t_step).getD (b2Idx alt cutoff dt t_step (2 * k) + 1) 0 -
          (coarseGrid dt t_step).getD (b2Idx alt cutoff dt t_step (2 * k)) 0,
        by omega⟩
    have hs0le : s0 ≤ t_step := by omega
    rw [hs0] at hr1alt
    have hriseb := refineRise_bounds hs0le hr1alt
    have hrb1 : (coarseGrid dt t_step).getD
        (b2Idx alt cutoff dt t_step (2 * k)) 0 ≤
        riseTime alt cutoff dt t_step k := hriseb.1
    have hrb2 : riseTime alt cutoff dt t_step k ≤
        (coarseGrid dt t_step).getD
          (b2Idx alt cutoff dt t_step (2 * k)) 0 + s0 := hriseb.2.1
    refine ⟨?_, hr_lt, hs_lt, hrb1, by omega, hsetb.1, hsetb.2⟩
    calc riseTime alt cutoff dt t_step k ≤
        (coarseGrid dt t_step).getD
          (b2Idx alt cutoff dt t_step (2 * k)) 0 + s0 := hrb2
      _ = (coarseGrid dt t_step).getD
          (b2Idx alt cutoff dt t_step (2 * k) + 1) 0 := hs0.symm
      _ ≤ (coarseGrid dt t_step).getD
          (b2Idx alt cutoff dt t_step (2 * k + 1)) 0 :=
        coarseGrid_mono hstep (by omega) hs_lt
      _ ≤ setTime alt cutoff dt t_step k := hsetb.1

/-- Consecutive passes do not overlap: the refined set of one pass is
strictly earlier than the refined rise of the next. -/
theorem succ_facts (alt : ℕ → ℚ) (cutoff : ℚ) (dt t_step : ℕ)
    (hstep : 1 ≤ t_step)
    (hne : flips (aboveList alt cutoff dt t_step) ≠ []) {k : ℕ}
    (hk : 2 * k + 3 < (boundaries (aboveList alt cutoff dt t_step)).length) :
    setTime alt cutoff dt t_step k < riseTime alt cutoff dt t_step (k + 1) := by
  have hLeq := aboveList_length alt cutoff dt t_step
  have hs_lt : b2Idx alt cutoff dt t_step (2 * k + 1) <
      (coarseGrid dt t_step).length := by
    rw [← hLeq]
    exact b2_getD_lt hne (by omega)
  have hs_flip : b2Idx alt cutoff dt t_step (2 * k + 1) ∈
      flips (aboveList alt cutoff dt t_step) :=
    b2_odd_flip hne (by omega) (by omega)
  have hsA : (aboveList alt cutoff dt t_step).getD
      (b2Idx alt cutoff dt t_step (2 * k + 1)) false = true :=
    b2_odd_val hne (show 2 * k + 1 <
      (boundaries (aboveList alt cutoff dt t_step)).length by omega) (by omega)
  have hs1F : (aboveList alt cutoff dt t_step).getD
      (b2Idx alt cutoff dt t_step (2 * k + 1) + 1) false = false := by
    rw [flip_succ hs_flip, hsA]
    rfl
  have hr'_flip : b2Idx alt cutoff dt t_step (2 * k + 2) ∈
      flips (aboveList alt cutoff dt t_step) :=
    b2_even_flip hne (by omega) (by omega) (by omega)
  have hr'1_lt : b2Idx alt cutoff dt t_step (2 * k + 2) + 1 <
      (aboveList alt cutoff dt t_step).length := (mem_flips.mp hr'_flip).1
  have hs_lt_r' : b2Idx alt cutoff dt t_step (2 * k + 1) <
      b2Idx alt cutoff dt t_step (2 * k + 2) :=
    b2_strict hne (by omega) (Or.inl (by omega))
  have hspace : (coarseGrid dt t_step).getD
        (b2Idx alt cutoff dt t_step (2 * k + 1) + 1) 0 =
      (coarseGrid dt t_step).getD
        (b2Idx alt cutoff dt t_step (2 * k + 1)) 0 + t_step :=
    coarseGrid_spacing_eq (by omega)
  rw [aboveList_getD hs_lt] at hsA
  have hsalt := of_decide_eq_true hsA
  have hend : ¬ cutoff < alt ((coarseGrid dt t_step).getD
      (b2Idx alt cutoff dt t_step (2 * k + 1)) 0 + t_step) := by
    rw [← hspace]
    rw [aboveList_getD (by omega)] at hs1F
    intro hcon
    rw [decide_eq_true hcon] at hs1F
    cases hs1F
  have hsetlt : setTime alt cutoff dt t_step k + 1 ≤
      (coarseGrid dt t_step).getD
        (b2Idx alt cutoff dt t_step (2 * k + 1)) 0 + t_step :=
    refineSet_lt_end hsalt hend
  have hpf := pair_facts alt cutoff dt t_step hstep hne
    (show 2 * (k + 1) + 1 <
      (boundaries (aboveList alt cutoff dt t_step)).length by omega)
  have hrise_ge := hpf.2.2.2.1
  have hidx : 2 * (k + 1) = 2 * k + 2 := by omega
  rw [hidx] at hrise_ge
  have hmono : (coarseGrid dt t_step).getD
        (b2Idx alt cutoff dt t_step (2 * k + 1) + 1) 0 ≤
      (coarseGrid dt t_step).getD
        (b2Idx alt cutoff dt t_step (2 * k + 2)) 0 :=
    coarseGrid_mono hstep (by omega) (by omega)
  omega

theorem headD_map_ne {α β : Type _} {l : List α} (f : α → β) (hne : l ≠ [])
    (d : β) (d' : α) : (l.map f).headD d = f (l.headD d') := by
  cases l with
  | nil => exact absurd rfl hne
  | cons a t => rfl

theorem getLastD_map_ne {α β : Type _} {l : List α} (f : α → β)
    (hne : l ≠ []) (d : β) (d' : α) :
    (l.map f).getLastD d = f (l.getLastD d') := by
  have hpos : 0 < l.length := by
    cases l with
    | nil => exact absurd rfl hne
    | cons a t => simp
  rw [getLastD_eq_getD, getLastD_eq_getD, List.length_map]
  exact getD_map' f l d d' (by omega)

theorem b2_zero {above : List Bool} (hne : flips above ≠ [])
    (hA0 : above.getD 0 false = true) :
    (boundaries above).getD 0 0 = 0 := by
  have h0pre : 0 < (preBoundaries above).length := by
    rw [preBoundaries_len hne]
    have := flips_len_pos hne
    split <;> omega
  rw [b2_getD_pre h0pre]
  unfold preBoundaries
  rw [flips_head_val hne]
  split
  · rfl
  · rename_i h
    exact absurd hA0 h

/-- C10: every invocation of the pass detector returns a list of passes
that is chronologically ordered and pairwise non-overlapping, each pass
satisfies rise ≤ set, and each refined boundary lies within one coarse
step of a coarse-grid sample. -/
theorem next_pass_invariants (alt : ℕ → ℚ) (cutoff : ℚ) (dt t_step : ℕ)
    (hstep : 1 ≤ t_step) :
    (∀ p ∈ next_pass alt cutoff dt t_step, p.1 ≤ p.2) ∧
    List.Chain' (fun p q : ℕ × ℕ => p.2 < q.1)
      (next_pass alt cutoff dt t_step) ∧
    (∀ p ∈ next_pass alt cutoff dt t_step,
      ∃ i j, i < (coarseGrid dt t_step).length ∧
        j < (coarseGrid dt t_step).length ∧
        (coarseGrid dt t_step).getD i 0 ≤ p.1 ∧
        p.1 ≤ (coarseGrid dt t_step).getD i 0 + t_step ∧
        (coarseGrid dt t_step).getD j 0 ≤ p.2 ∧
        p.2 ≤ (coarseGrid dt t_step).getD j 0 + t_step) := by
  by_cases hfl : flips (aboveList alt cutoff dt t_step) = []
  · rw [next_pass_eq, if_pos hfl]
    exact ⟨by simp, by simp, by simp⟩
  · rw [next_pass_eq, if_neg hfl]
    have heven := b2_len_even hfl
    refine ⟨?_, ?_, ?_⟩
    · intro p hp
      obtain ⟨pr, hpr, rfl⟩ := List.mem_map.mp hp
      obtain ⟨k, hk, rfl⟩ := chunk2_mem_decomp hpr
      exact (pair_facts alt cutoff dt t_step hstep hfl hk).1
    · rw [List.chain'_map, List.chain'_iff_get]
      intro i hlen
      have hchlen :
          (chunk2 (boundaries (aboveList alt cutoff dt t_step))).length =
            (boundaries (aboveList alt cutoff dt t_step)).length / 2 :=
        chunk2_length _
      have hkbound : 2 * i + 3 <
          (boundaries (aboveList alt cutoff dt t_step)).length := by
        rw [hchlen] at hlen
        omega
      have hget1 :
          (chunk2 (boundaries (aboveList alt cutoff dt t_step))).get
              ⟨i, by rw [hchlen]; omega⟩ =
            ((boundaries (aboveList alt cutoff dt t_step)).getD (2 * i) 0,
              (boundaries (aboveList alt cutoff dt t_step)).getD
                (2 * i + 1) 0) := by
        rw [← chunk2_getD _ i (by omega),
          List.getD_eq_getElem _ (0, 0) (by rw [hchlen]; omega)]
        rfl
      have hget2 :
          (chunk2 (boundaries (aboveList alt cutoff dt t_step))).get
              ⟨i + 1, by rw [hchlen]; omega⟩ =
            ((boundaries (aboveList alt cutoff dt t_step)).getD
                (2 * (i + 1)) 0,
              (boundaries (aboveList alt cutoff dt t_step)).getD
                (2 * (i + 1) + 1) 0) := by
        rw [← chunk2_getD _ (i + 1) (by omega),
          List.getD_eq_getElem _ (0, 0) (by rw [hchlen]; omega)]
        rfl
      rw [hget1, hget2]
      exact succ_facts alt cutoff dt t_step hstep hfl (by omega)
    · intro p hp
      obtain ⟨pr, hpr, rfl⟩ := List.mem_map.mp hp
      obtain ⟨k, hk, rfl⟩ := chunk2_mem_decomp hpr
      obtain ⟨c1, c2, c3, c4, c5, c6, c7⟩ :=
        pair_facts alt cutoff dt t_step hstep hfl hk
      exact ⟨b2Idx alt cutoff dt t_step (2 * k),
        b2Idx alt cutoff dt t_step (2 * k + 1), c2, c3, c4, c5, c6, c7⟩

theorem next_pass_invariants_witness :
    (∀ p ∈ next_pass (fun _ => (1 : ℚ)) 0 4 2, p.1 ≤ p.2) ∧
    List.Chain' (fun p q : ℕ × ℕ => p.2 < q.1)
      (next_pass (fun _ => (1 : ℚ)) 0 4 2) ∧
    (∀ p ∈ next_pass (fun _ => (1 : ℚ)) 0 4 2,
      ∃ i j, i < (coarseGrid 4 2).length ∧ j < (coarseGrid 4 2).length ∧
        (coarseGrid 4 2).getD i 0 ≤ p.1 ∧
        p.1 ≤ (coarseGrid 4 2).getD i 0 + 2 ∧
        (coarseGrid 4 2).getD j 0 ≤ p.2 ∧
        p.2 ≤ (coarseGrid 4 2).getD j 0 + 2) :=
  next_pass_invariants (fun _ => (1 : ℚ)) 0 4 2 (by decide)

/-- C3 (amended): with at least one coarse-grid cutoff crossing, a
target above cutoff at `t_start` yields a first pass beginning exactly
at `t_start`, and a target above cutoff at `t_end` yields a last pass
ending within one coarse step at or after `t_end` — exactly at `t_end`
when it is still above one coarse step past `t_end`; but a target above
the cutoff at every coarse sample produces no crossing and `next_pass`
returns the empty list, not the full-window pass. -/
theorem next_pass_edges (alt : ℕ → ℚ) (cutoff : ℚ) (dt t_step : ℕ)
    (hstep : 1 ≤ t_step) :
    ((∀ t ∈ coarseGrid dt t_step, cutoff < alt t) →
      next_pass alt cutoff dt t_step = []) ∧
    (flips (aboveList alt cutoff dt t_step) ≠ [] → cutoff < alt 0 →
      next_pass alt cutoff dt t_step ≠ [] ∧
      ((next_pass alt cutoff dt t_step).headD (0, 0)).1 = 0) ∧
    (flips (aboveList alt cutoff dt t_step) ≠ [] → cutoff < alt dt →
      dt ≤ ((next_pass alt cutoff dt t_step).getLastD (0, 0)).2 ∧
      ((next_pass alt cutoff dt t_step).getLastD (0, 0)).2 ≤ dt + t_step ∧
      (cutoff < alt (dt + t_step) →
        ((next_pass alt cutoff dt t_step).getLastD (0, 0)).2 = dt)) := by
  have hLg := aboveList_length alt cutoff dt t_step
  refine ⟨?_, ?_, ?_⟩
  · intro hall
    have hfl : flips (aboveList alt cutoff dt t_step) = [] := by
      unfold flips
      rw [List.filter_eq_nil_iff]
      intro i hi
      rw [List.mem_range] at hi
      have h1 : (aboveList alt cutoff dt t_step).getD i false = true := by
        rw [aboveList_getD (by omega)]
        exact decide_eq_true (hall _ (getD_mem (by omega) 0))
      have h2 : (aboveList alt cutoff dt t_step).getD (i + 1) false = true := by
        rw [aboveList_getD (by omega)]
        exact decide_eq_true (hall _ (getD_mem (by omega) 0))
      rw [h1, h2]
      simp
    rw [next_pass_eq, if_pos hfl]
  · intro hfl halt0
    have hL2 : 2 ≤ (aboveList alt cutoff dt t_step).length :=
      length_ge_two hfl
    have hm1 : 1 ≤ (dt + t_step - 1) / t_step := by
      rw [coarseGrid_length] at hLg
      omega
    have hg0 : (coarseGrid dt t_step).getD 0 0 = 0 := by
      rw [coarseGrid_getD_arange (by omega)]
      omega
    have hA0 : (aboveList alt cutoff dt t_step).getD 0 false = true := by
      rw [aboveList_getD (by omega), hg0]
      exact decide_eq_true halt0
    have hb0 := b2_zero hfl hA0
    have hlenb2 := b2_len_ge2 hfl
    have hchne : chunk2 (boundaries (aboveList alt cutoff dt t_step)) ≠ [] := by
      intro h
      have hl := chunk2_length (boundaries (aboveList alt cutoff dt t_step))
      rw [h] at hl
      simp at hl
      omega
    rw [next_pass_eq, if_neg hfl]
    constructor
    · intro h
      rw [List.map_eq_nil_iff] at h
      exact hchne h
    · rw [headD_map_ne _ hchne (0, 0) (0, 0), headD_eq_getD,
        chunk2_getD _ 0 (by omega)]
      show refineRise alt cutoff
        ((coarseGrid dt t_step).getD
          ((boundaries (aboveList alt cutoff dt t_step)).getD 0 0) 0)
        t_step = 0
      rw [hb0, hg0, refineRise_at_start halt0]
  · intro hfl haltdt
    have hL2 : 2 ≤ (aboveList alt cutoff dt t_step).length :=
      length_ge_two hfl
    have hglast : (coarseGrid dt t_step).getD
        ((aboveList alt cutoff dt t_step).length - 1) 0 = dt := by
      rw [hLg, coarseGrid_length]
      have := coarseGrid_getD_last dt t_step
      simpa using this
    have hAlast : (aboveList alt cutoff dt t_step).getD
        ((aboveList alt cutoff dt t_step).length - 1) false = true := by
      rw [aboveList_getD (by omega), hglast]
      exact decide_eq_true haltdt
    have hblast := b2_last hfl hAlast
    have hlenb2 := b2_len_ge2 hfl
    have heven := b2_len_even hfl
    have hchne : chunk2 (boundaries (aboveList alt cutoff dt t_step)) ≠ [] := by
      intro h
      have hl := chunk2_length (boundaries (aboveList alt cutoff dt t_step))
      rw [h] at hl
      simp at hl
      omega
    rw [next_pass_eq, if_neg hfl]
    rw [getLastD_map_ne _ hchne (0, 0) (0, 0), getLastD_eq_getD,
      chunk2_length]
    have hidx : 2 * ((boundaries (aboveList alt cutoff dt t_step)).length / 2
        - 1) + 1 =
        (boundaries (aboveList alt cutoff dt t_step)).length - 1 := by
      omega
    rw [chunk2_getD _ _ (by omega), hidx]
    show dt ≤ refineSet alt cutoff
        ((coarseGrid dt t_step).getD
          ((boundaries (aboveList alt cutoff dt t_step)).getD
            ((boundaries (aboveList alt cutoff dt t_step)).length - 1) 0) 0)
        t_step ∧ _
    rw [hblast, hglast]
    have hb := @refineSet_bounds alt _ _ t_step haltdt
    exact ⟨hb.1, hb.2, fun hmore => refineSet_at_start haltdt hmore⟩

/-- A constant altitude profile above the cutoff. -/
def altConst : ℕ → ℚ := fun _ => 1

/-- An altitude profile that rises above the cutoff during the window. -/
def altUp : ℕ → ℚ := fun t => if t < 2 then -1 else 1

/-- An altitude profile that starts above the cutoff and then sets. -/
def altDown : ℕ → ℚ := fun t => if t < 2 then 1 else -1

/-- C3, counterexample input: a target above the cutoff at every coarse
sample of the window — including both `t_start` and `t_end` — for which
`next_pass` returns the empty list rather than the pass
`[t_start, t_end]`. -/
theorem next_pass_all_above_empty :
    (∀ t ∈ coarseGrid 4 2, (0 : ℚ) < altConst t) ∧
      next_pass altConst 0 4 2 = [] := by
  constructor
  · intro t _
    norm_num [altConst]
  · decide

theorem next_pass_edges_witness :
    next_pass altConst 0 4 2 = [] ∧
    ((next_pass altDown 0 4 2).headD (0, 0)).1 = 0 ∧
    ((next_pass altUp 0 4 2).getLastD (0, 0)).2 = 4 :=
  ⟨(next_pass_edges altConst 0 4 2 (by decide)).1 (by decide),
    ((next_pass_edges altDown 0 4 2 (by decide)).2.1 (by decide)
      (by decide)).2,
    ((next_pass_edges altUp 0 4 2 (by decide)).2.2 (by decide)
      (by decide)).2.2 (by decide)⟩

/-- Per-second visibility flags of one pass (visible_pass.py lines 236,
238, 241): the station is dark (solar altitude below the twilight
cutoff) and the target is sunlit. -/
def visFlags (sun_alt : List ℚ) (sun_cutoff : ℚ) (sunlit : List Bool) :
    List Bool :=
  List.zipWith (fun a s => decide (a < sun_cutoff) && s) sun_alt sunlit

/-- `t_visible = np.array(t.utc_iso())[visible]` (line 245): the sample
times whose visibility flag is set. -/
def visTimes (ts sun_alt : List ℚ) (sun_cutoff : ℚ)
    (sunlit : List Bool) : List ℚ :=
  ((ts.zip (visFlags sun_alt sun_cutoff sunlit)).filter fun p => p.2).map
    fun p => p.1

/-- Lines 243-247: the window reported for one pass is the span from the
first to the last visible sample (`t_visible[0]`, `t_visible[-1]`);
`none` when no sample is visible. -/
def visible_window (ts sun_alt : List ℚ) (sun_cutoff : ℚ)
    (sunlit : List Bool) : Option (ℚ × ℚ) :=
  let tv := visTimes ts sun_alt sun_cutoff sunlit
  if tv = [] then none else some (tv.headD 0, tv.getLastD 0)

/-- Lines 248-250: the pass goes to the by-satellite summary iff some
sample is visible and `round(t_last - t_first) >= visible_duration`. -/
def written (ts sun_alt : List ℚ) (sun_cutoff : ℚ) (sunlit : List Bool)
    (dur : ℤ) : Bool :=
  match visible_window ts sun_alt sun_cutoff sunlit with
  | none => false
  | some (a, b) => decide (dur ≤ round (b - a))

theorem sorted_headD_le {l : List ℚ} (hs : List.Pairwise (· ≤ ·) l)
    {x : ℚ} (hx : x ∈ l) : l.headD 0 ≤ x := by
  cases l with
  | nil => cases hx
  | cons a t =>
    rcases List.mem_cons.mp hx with rfl | hxt
    · simp
    · simp only [List.headD_cons]
      exact (List.pairwise_cons.mp hs).1 x hxt

theorem sorted_le_getLastD {l : List ℚ} (hs : List.Pairwise (· ≤ ·) l)
    {x : ℚ} (hx : x ∈ l) : x ≤ l.getLastD 0 := by
  have hpos : 0 < l.length := by
    cases l with
    | nil => cases hx
    | cons a t => simp
  obtain ⟨⟨i, hi⟩, hieq⟩ := List.mem_iff_get.mp hx
  rw [getLastD_eq_getD, List.getD_eq_getElem _ 0 (by omega)]
  rcases Nat.lt_or_ge i (l.length - 1) with hc | hc
  · rw [← hieq]
    exact List.pairwise_iff_get.mp hs ⟨i, hi⟩ ⟨l.length - 1, by omega⟩ hc
  · have : i = l.length - 1 := by omega
    subst this
    rw [← hieq]
    rfl

theorem visTimes_sorted (ts sun_alt : List ℚ) (sun_cutoff : ℚ)
    (sunlit : List Bool) (hsort : List.Pairwise (· ≤ ·) ts) :
    List.Pairwise (· ≤ ·)
      (visTimes ts sun_alt sun_cutoff sunlit) := by
  have hlz : (ts.zip (visFlags sun_alt sun_cutoff sunlit)).length =
      min ts.length (visFlags sun_alt sun_cutoff sunlit).length :=
    List.length_zip _ _
  unfold visTimes
  rw [List.pairwise_map]
  apply List.Pairwise.filter
  rw [List.pairwise_iff_get]
  intro i j hij
  have h1 : ((ts.zip (visFlags sun_alt sun_cutoff sunlit)).get i).1 =
      ts.get ⟨i, by have h := i.isLt; omega⟩ := by
    rw [List.get_zip]
  have h2 : ((ts.zip (visFlags sun_alt sun_cutoff sunlit)).get j).1 =
      ts.get ⟨j, by have h := j.isLt; omega⟩ := by
    rw [List.get_zip]
  rw [h1, h2]
  exact List.pairwise_iff_get.mp hsort _ _ hij

/-- C6 (amended): the visible window reported for a pass is the span
from the first to the last visible sample — its endpoints are visible
samples bounding every visible sample, but interior samples need not be
visible — and the pass is written to the by-satellite summary iff a
window exists whose rounded span is at least the configured minimum
duration. -/
theorem visible_window_span (ts sun_alt : List ℚ) (sun_cutoff : ℚ)
    (sunlit : List Bool) (dur : ℤ)
    (hsort : List.Pairwise (· ≤ ·) ts) :
    (∀ a b, visible_window ts sun_alt sun_cutoff sunlit = some (a, b) →
      a ∈ visTimes ts sun_alt sun_cutoff sunlit ∧
      b ∈ visTimes ts sun_alt sun_cutoff sunlit ∧
      ∀ t ∈ visTimes ts sun_alt sun_cutoff sunlit, a ≤ t ∧ t ≤ b) ∧
    (written ts sun_alt sun_cutoff sunlit dur = true ↔
      ∃ a b, visible_window ts sun_alt sun_cutoff sunlit = some (a, b) ∧
        dur ≤ round (b - a)) := by
  have hvs := visTimes_sorted ts sun_alt sun_cutoff sunlit hsort
  constructor
  · intro a b hab
    simp only [visible_window] at hab
    split at hab
    · cases hab
    · rename_i hne
      injection hab with hab'
      have ha : a = (visTimes ts sun_alt sun_cutoff sunlit).headD 0 := by
        have := congrArg Prod.fst hab'
        exact this.symm
      have hb : b = (visTimes ts sun_alt sun_cutoff sunlit).getLastD 0 := by
        have := congrArg Prod.snd hab'
        exact this.symm
      subst ha
      subst hb
      refine ⟨headD_mem hne 0, getLastD_mem hne 0, ?_⟩
      intro t ht
      exact ⟨sorted_headD_le hvs ht, sorted_le_getLastD hvs ht⟩
  · unfold written
    cases hw : visible_window ts sun_alt sun_cutoff sunlit with
    | none =>
      simp
    | some p =>
      obtain ⟨a, b⟩ := p
      simp only [decide_eq_true_eq]
      constructor
      · intro h
        exact ⟨a, b, rfl, h⟩
      · rintro ⟨a', b', heq, hd⟩
        injection heq with heq'
        cases heq'
        exact hd

/-- C6, counterexample input: samples at 0, 60 and 120 seconds where the
middle sample is not visible (the sun is up at altitude 0, above the
nautical cutoff −6) — the reported window is still the full span
(0, 120), it contains a non-visible sample, and with minimum duration
120 it is written to the summary. -/
theorem visible_window_gap :
    visible_window [0, 60, 120] [-10, 0, -10] (-6) [true, true, true] =
      some (0, 120) ∧
    (visFlags [-10, 0, -10] (-6) [true, true, true]).getD 1 false = false ∧
    written [0, 60, 120] [-10, 0, -10] (-6) [true, true, true] 120 = true := by
  refine ⟨by decide, by decide, ?_⟩
  have h1 : visible_window [0, 60, 120] [-10, 0, -10] (-6)
      [true, true, true] = some (0, 120) := by decide
  unfold written
  rw [h1]
  have h2 : ((120 : ℚ) - 0) = ((120 : ℤ) : ℚ) := by norm_num
  show decide ((120 : ℤ) ≤ round ((120 : ℚ) - 0)) = true
  rw [h2, round_intCast]
  decide

theorem visible_window_span_witness :
    (0 : ℚ) ∈ visTimes [0, 60, 120] [-10, 0, -10] (-6)
      [true, true, true] ∧
    (120 : ℚ) ∈ visTimes [0, 60, 120] [-10, 0, -10] (-6)
      [true, true, true] ∧
    ∀ t ∈ visTimes [0, 60, 120] [-10, 0, -10] (-6) [true, true, true],
      (0 : ℚ) ≤ t ∧ t ≤ 120 :=
  (visible_window_span [0, 60, 120] [-10, 0, -10] (-6)
    [true, true, true] 120 (by decide)).1 0 120 (by decide)

end SLRfield
